import Mathlib

/-!
# go-rainbow-collage: a shallow embedding and its verified properties

The Go package sorts images by the HSV key of their average colour
(`sortImagesByHsv`), lays the sorted sequence out along the anti-diagonals of
an `x` by `y` grid (`rearrangeImages`) and hands the cells to an external merge
library (`New`).

Conventions of the embedding:
* Go `int` cursors are `Int`; slice indices that only count up from zero are `Nat`;
* `uint32` arithmetic is `Nat` arithmetic followed by `% 2^32`, `uint8(v)` is `v % 256`;
* `float64` arithmetic is read exactly, over `ℚ`;
* a run-time panic is a value of `Panic`;
* a slice that the Go code mutates in place is passed in and returned.
-/

namespace RainbowCollage

/-! ## Run-time panics -/

/-- Run-time panics that the embedded Go code can raise. -/
inductive Panic where
  | nilDereference
  | integerDivideByZero
  | indexOutOfRange
  | makesliceLenOutOfRange
  deriving DecidableEq, Repr

/-! ## Diagonal Grid Mapper: `rearrangeImages` -/

/-- Loop variables `row`, `col`, `dir` of `rearrangeImages`. -/
structure Cursor where
  row : Int
  col : Int
  dir : Bool
  deriving DecidableEq, Repr

/-- Body of the traversal loop after the placement (source lines 105-136):
computes the attempted diagonal move and either takes it or, when it leaves
the grid, steps along the boundary and flips `dir`. -/
def advance (x y : Int) (c : Cursor) : Cursor :=
  let newRow : Int := if c.dir then c.row + -1 else c.row + 1
  let newCol : Int := if c.dir then c.col + 1 else c.col + -1
  if newRow < 0 ∨ newRow = y ∨ newCol < 0 ∨ newCol = x then
    if c.dir then
      let row1 : Int := if c.col = x - 1 then c.row + 1 else c.row
      let col1 : Int := if c.col < x - 1 then c.col + 1 else c.col
      { row := row1, col := col1, dir := !c.dir }
    else
      let col1 : Int := if c.row = y - 1 then c.col + 1 else c.col
      let row1 : Int := if c.row < y - 1 then c.row + 1 else c.row
      { row := row1, col := col1, dir := !c.dir }
  else
    { row := newRow, col := newCol, dir := c.dir }

/-- The statement `matrix[row][col] = e`; `none` when an index is out of range. -/
def setCell {α : Type} (matrix : List (List α)) (row col : Int) (e : α) :
    Option (List (List α)) :=
  if 0 ≤ row ∧ 0 ≤ col then
    match matrix[row.toNat]? with
    | none => none
    | some r =>
      if col.toNat < r.length then some (matrix.set row.toNat (r.set col.toNat e)) else none
  else none

/-- The expression `matrix[i][j]`; `none` when an index is out of range. -/
def readCell {α : Type} (matrix : List (List α)) (i j : Nat) : Option α :=
  match matrix[i]? with
  | none => none
  | some r => r[j]?

/-- The allocation of the `y` by `x` matrix of zero values (source lines 92-95). -/
def makeMatrix {α : Type} [Inhabited α] (x y : Int) : Except Panic (List (List α)) :=
  if y < 0 then .error .makesliceLenOutOfRange
  else if 0 < y ∧ x < 0 then .error .makesliceLenOutOfRange
  else .ok (List.replicate y.toNat (List.replicate x.toNat default))

/-- The traversal loop `for row < y && col < x` (source lines 101-138), started
with cursor `c`, read index `l` and the matrix built so far. -/
def fillLoop {α : Type} (x y : Int) (entries : List α) (c : Cursor) (l : Nat)
    (matrix : List (List α)) : Except Panic (List (List α)) :=
  if h : c.row < y ∧ c.col < x then
    match entries[l]? with
    | none => .error .indexOutOfRange
    | some e =>
      match setCell matrix c.row c.col e with
      | none => .error .indexOutOfRange
      | some m => fillLoop x y entries (advance x y c) (l + 1) m
  else .ok matrix
termination_by ((x + y - (c.row + c.col)).toNat, if c.dir then c.row.toNat else c.col.toNat)
decreasing_by
  rcases c with ⟨r, k, d⟩
  obtain ⟨h1, h2⟩ := h
  rw [Prod.lex_def]
  cases d
  · dsimp only [advance] at h1 h2 ⊢
    split_ifs <;>
      simp only [Bool.not_false, Bool.not_true, if_true, if_false, Bool.false_eq_true] <;> omega
  · dsimp only [advance] at h1 h2 ⊢
    split_ifs <;>
      simp only [Bool.not_false, Bool.not_true, if_true, if_false, Bool.false_eq_true] <;> omega

/-- Index pairs `(i, j)` in the order of the two write-back loops
`for i < y { for j < x { ... } }` (source lines 142-147). -/
def rowMajor (x y : Int) : List (Nat × Nat) :=
  (List.range y.toNat).flatMap (fun i => (List.range x.toNat).map (fun j => (i, j)))

/-- The write-back loops: for each index pair in turn `entries[l] = matrix[i][j]; l++`.
Returns the slice contents when the loops end and the panic that ended them, if any. -/
def writeBack {α : Type} (matrix : List (List α)) :
    List (Nat × Nat) → List α → Nat → List α × Option Panic
  | [], entries, _ => (entries, none)
  | (i, j) :: rest, entries, l =>
    match readCell matrix i j with
    | none => (entries, some .indexOutOfRange)
    | some v =>
      if l < entries.length then writeBack matrix rest (entries.set l v) (l + 1)
      else (entries, some .indexOutOfRange)

/-- The function `rearrangeImages(entries, x, y)`. The result is the contents of the
slice `entries` when the call ends, and the panic that ended the call, if any. -/
def rearrangeImages {α : Type} [Inhabited α] (entries : List α) (x y : Int) :
    List α × Option Panic :=
  match makeMatrix x y with
  | .error p => (entries, some p)
  | .ok matrix =>
    match fillLoop x y entries { row := 0, col := 0, dir := true } 0 matrix with
    | .error p => (entries, some p)
    | .ok filled => writeBack filled (rowMajor x y) entries 0

/-! ## Colour Reducer: `averageImageColor`, `normalize`, `hsv`, `getImageColor` -/

/-- The four `uint32` results of the method `RGBA()` of a `color.Color`. -/
structure RGBA where
  r : Nat
  g : Nat
  b : Nat
  a : Nat
  deriving DecidableEq, Repr

/-- The library type `color.NRGBA`: four `uint8` fields. -/
structure NRGBA where
  R : Nat
  G : Nat
  B : Nat
  A : Nat
  deriving DecidableEq, Repr

/-- One channel of the library method `(color.NRGBA).RGBA`:
`r = uint32(c.R); r |= r << 8; r *= uint32(c.A); r /= 0xff`. -/
def premultiply (v alpha : Nat) : Nat :=
  ((v ||| (v <<< 8)) * alpha % 4294967296) / 0xff

/-- The library method `(color.NRGBA).RGBA`; the alpha channel is
`a = uint32(c.A); a |= a << 8`. -/
def NRGBA.RGBA (c : NRGBA) : RGBA :=
  { r := premultiply c.R c.A, g := premultiply c.G c.A, b := premultiply c.B c.A,
    a := c.A ||| (c.A <<< 8) }

/-- A decoded image as the code reads it: the corners `Min`, `Max` of `Bounds()` and,
for each point, the result of `At(x, y).RGBA()`. -/
structure Image where
  minX : Int
  minY : Int
  maxX : Int
  maxY : Int
  colorAt : Int → Int → RGBA

/-- The value `d := uint32(bounds.Dy() * bounds.Dx())` of `averageImageColor`. -/
def Image.pixelCount (i : Image) : Nat :=
  (((i.maxY - i.minY) * (i.maxX - i.minX)) % 4294967296).toNat

/-- The values `lo, lo+1, ..., hi-1` of a loop `for v := lo; v < hi; v++`. -/
def loopRange (lo hi : Int) : List Int :=
  (List.range (hi - lo).toNat).map (fun (n : Nat) => lo + (n : Int))

/-- The statements `r += pr; g += pg; b += pb` on `uint32` accumulators. -/
def addPixel (acc : Nat × Nat × Nat) (p : RGBA) : Nat × Nat × Nat :=
  ((acc.1 + p.r) % 4294967296, (acc.2.1 + p.g) % 4294967296, (acc.2.2 + p.b) % 4294967296)

/-- The two pixel loops of `averageImageColor` (source lines 71-79). -/
def sumPixels (i : Image) : Nat × Nat × Nat :=
  (loopRange i.minY i.maxY).foldl
    (fun acc y => (loopRange i.minX i.maxX).foldl (fun acc x => addPixel acc (i.colorAt x y)) acc)
    (0, 0, 0)

/-- The function `averageImageColor(i)`: the `uint32` divisions by `d` panic when `d` is 0. -/
def averageImageColor (i : Image) : Except Panic NRGBA :=
  let sums := sumPixels i
  let d := i.pixelCount
  if d = 0 then .error .integerDivideByZero
  else
    .ok { R := (sums.1 / d / 0x101) % 256, G := (sums.2.1 / d / 0x101) % 256,
          B := (sums.2.2 / d / 0x101) % 256, A := 255 }

/-- The function `normalize(col)`, with the `float64` divisions read exactly. -/
def normalize (col : RGBA) : ℚ × ℚ × ℚ :=
  ((col.r : ℚ) / 0x10000, (col.g : ℚ) / 0x10000, (col.b : ℚ) / 0x10000)

/-- The `switch max` of `hsv` (source lines 40-50): the hue before the division by 6. -/
def hueSector (fR fG fB mx d : ℚ) : ℚ :=
  if mx = fR then
    if fG < fB then (fG - fB) / d + 6 else (fG - fB) / d
  else if mx = fG then (fB - fR) / d + 2
  else if mx = fB then (fR - fG) / d + 4
  else 0

/-- The function `hsv(c)` applied to the channels `c.RGBA()`; returns `(h, s, v)`. -/
def hsv (c : RGBA) : ℚ × ℚ × ℚ :=
  let fR := (normalize c).1
  let fG := (normalize c).2.1
  let fB := (normalize c).2.2
  let mx := max (max fR fG) fB
  let mn := min (min fR fG) fB
  let d := mx - mn
  let s := if mx > 0 then d / mx else 0
  let v := mx
  let h := if mx = mn then 0 else hueSector fR fG fB mx d / 6
  (h, s, v)

/-- The struct `entryColor`. -/
structure entryColor where
  Hue : ℚ
  Sat : ℚ
  Value : ℚ
  deriving DecidableEq

/-- The zero value of `entryColor`. -/
instance : Inhabited entryColor := ⟨{ Hue := 0, Sat := 0, Value := 0 }⟩

/-- The struct `collageEntry`; a nil `*image.Image` is `none`. -/
structure collageEntry where
  Image : Option Image
  Color : entryColor

/-- The zero value of `collageEntry`. -/
instance : Inhabited collageEntry := ⟨{ Image := none, Color := default }⟩

/-- The function `getImageColor(i)`: dereferencing a nil handle panics. -/
def getImageColor (i : Option Image) : Except Panic entryColor :=
  match i with
  | none => .error .nilDereference
  | some img =>
    match averageImageColor img with
    | .error p => .error p
    | .ok color =>
      .ok { Hue := (hsv color.RGBA).1 * 60, Sat := (hsv color.RGBA).2.1,
            Value := (hsv color.RGBA).2.2 }

/-! ## Perceptual Sorter: `sortImagesByHsv` -/

/-- The comparator handed to `sort.Slice` (source lines 174-182). -/
def less (a b : collageEntry) : Bool :=
  if a.Color.Hue = b.Color.Hue then
    if a.Color.Sat = b.Color.Sat then decide (a.Color.Value < b.Color.Value)
    else decide (a.Color.Sat < b.Color.Sat)
  else decide (a.Color.Hue < b.Color.Hue)

/-- The requirement of the library on a comparator: a strict weak ordering. -/
def StrictWeak {α : Type} (lt : α → α → Bool) : Prop :=
  (∀ a, lt a a = false) ∧ (∀ a b c, lt a b = true → lt b c = true → lt a c = true) ∧
    (∀ a b c, lt b a = false → lt c b = false → lt c a = false)

/-- The library function `sort.Slice`, known by its contract only: the result is a
rearrangement of the slice and, for a comparator that is a strict weak ordering, no
element is less than an earlier one. The order of equal elements is not fixed. -/
structure SliceSorter where
  sort : {α : Type} → (α → α → Bool) → List α → List α
  perm : ∀ {α : Type} (lt : α → α → Bool) (xs : List α), (sort lt xs).Perm xs
  sorted : ∀ {α : Type} (lt : α → α → Bool) (xs : List α), StrictWeak lt →
    (sort lt xs).Pairwise (fun a b => lt b a = false)

/-- A sorter that meets the contract: insertion sort. -/
def insertionSorter : SliceSorter where
  sort := fun lt xs => xs.insertionSort (fun a b => lt b a = false)
  perm := fun lt xs => List.perm_insertionSort _ xs
  sorted := by
    intro α lt xs h
    obtain ⟨hirr, htr, hneg⟩ := h
    have htot : IsTotal α (fun a b => lt b a = false) := by
      refine ⟨fun a b => ?_⟩
      by_cases h1 : lt b a = true
      · right
        by_contra h2
        have h3 : lt a b = true := by simpa using h2
        have := htr a b a h3 h1
        rw [hirr a] at this
        exact Bool.false_ne_true this
      · left; simpa using h1
    have htrans : IsTrans α (fun a b => lt b a = false) := ⟨fun a b c h1 h2 => hneg a b c h1 h2⟩
    exact List.sorted_insertionSort (fun a b => lt b a = false) xs

/-- The colour tasks of `sortImagesByHsv` (source lines 164-172), one per entry:
`entries[i].Color = getImageColor(entries[i].Image)`. A panic in any task ends the
program; the first one in index order is reported. -/
def colourAll : List collageEntry → Except Panic (List collageEntry)
  | [] => .ok []
  | e :: rest =>
    match getImageColor e.Image with
    | .error p => .error p
    | .ok c =>
      match colourAll rest with
      | .error p => .error p
      | .ok done => .ok ({ Image := e.Image, Color := c } :: done)

/-- The function `sortImagesByHsv(entries)`: the colour tasks, then `sort.Slice`. -/
def sortImagesByHsv (S : SliceSorter) (entries : List collageEntry) :
    Except Panic (List collageEntry) :=
  match colourAll entries with
  | .error p => .error p
  | .ok coloured => .ok (S.sort less coloured)

/-! ## Collage Assembler: `New` -/

/-- The library struct `gim.Grid` as `New` fills it: only the field `Image` is set. -/
structure Grid where
  Image : Image

/-- The slice `entries` that `New` builds from `images` (source lines 187-191): zero
values with the field `Image` set. -/
def newEntries (images : List (Option Image)) : List collageEntry :=
  images.map (fun i => { Image := i, Color := default })

/-- The slice `grids` that `New` builds from the arranged entries (source lines 197-205):
cell `i` points to a grid holding the image of entry `i`, or is nil when that image is nil. -/
def gridsOf (entries : List collageEntry) : List (Option Grid) :=
  entries.map (fun e => e.Image.map Grid.mk)

/-- The last statements of `New` (source lines 208-211) on the pair `(collage, err)` that
the merge library returned: `if err != nil { return nil, err }; return collage, nil`. -/
def returnMerged {β ε : Type} (r : Option β × Option ε) : Option β × Option ε :=
  match r with
  | (_, some err) => (none, some err)
  | (collage, none) => (collage, none)

/-- The function `New(images, x, y)`. The merge library `gim.New(grids, x, y).Merge()`
is the parameter `merge`, returning the Go pair `(bitmap, error)`; a nil of either is
`none`. -/
def New {β ε : Type} (S : SliceSorter)
    (merge : List (Option Grid) → Int → Int → Option β × Option ε)
    (images : List (Option Image)) (x y : Int) : Except Panic (Option β × Option ε) :=
  match sortImagesByHsv S (newEntries images) with
  | .error p => .error p
  | .ok sorted =>
    match rearrangeImages sorted x y with
    | (_, some p) => .error p
    | (arranged, none) => .ok (returnMerged (merge (gridsOf arranged) x y))

/-! ## Proof vocabulary for the grid -/

/-- Total form of the matrix write, used where the indices are known to be in range. -/
def put {α : Type} (m : List (List α)) (r k : Nat) (e : α) : List (List α) :=
  m.set r ((m.getD r []).set k e)

/-- Total form of the matrix read, used where the indices are known to be in range. -/
def cellD {α : Type} [Inhabited α] (m : List (List α)) (r k : Nat) : α :=
  (m.getD r []).getD k default

/-- The matrix has `Y` rows of `X` cells each. -/
def Dims {α : Type} (m : List (List α)) (Y X : Nat) : Prop :=
  m.length = Y ∧ ∀ row ∈ m, row.length = X

/-- Writes the values `es` into the cells `cs`, pairwise and in order. -/
def writeAll {α : Type} (m : List (List α)) : List (Nat × Nat) → List α → List (List α)
  | (r, k) :: cs, e :: es => writeAll (put m r k e) cs es
  | _, _ => m

/-- First row of anti-diagonal `s` inside a grid of width `X`. -/
def diagLo (X s : Nat) : Nat := s - (X - 1)

/-- Last row of anti-diagonal `s` inside a grid of height `Y`. -/
def diagHi (Y s : Nat) : Nat := min s (Y - 1)

/-- Rows of anti-diagonal `s` in traversal order: descending (up-right) when `s` is even,
ascending (down-left) when `s` is odd. -/
def diagRows (X Y s : Nat) : List Nat :=
  if s % 2 = 0 then (List.range' (diagLo X s) (diagHi Y s + 1 - diagLo X s)).reverse
  else List.range' (diagLo X s) (diagHi Y s + 1 - diagLo X s)

/-- Cells `(row, col)` of anti-diagonal `s` in traversal order. -/
def diagCells (X Y s : Nat) : List (Nat × Nat) :=
  (diagRows X Y s).map (fun r => (r, s - r))

/-- The zig-zag order of the cells of a `Y` by `X` grid: anti-diagonals in ascending
order, each in its traversal order. -/
def zigzag (X Y : Nat) : List (Nat × Nat) :=
  (List.range (X + Y - 1)).flatMap (diagCells X Y)

/-- Cursor at which the traversal enters anti-diagonal `s`. -/
def diagStart (X Y s : Nat) : Cursor :=
  if s % 2 = 0 then { row := (diagHi Y s : Nat), col := (s - diagHi Y s : Nat), dir := true }
  else { row := (diagLo X s : Nat), col := (s - diagLo X s : Nat), dir := false }

/-- The loop, started at cursor `c`, places into the cells `cs` in turn (each inside the
grid) and then holds cursor `c2`. -/
def Seg (x y : Int) : Cursor → List (Nat × Nat) → Cursor → Prop
  | c, [], c2 => c = c2
  | c, (r, k) :: rest, c2 =>
    c.row = (r : Int) ∧ c.col = (k : Int) ∧ (r : Int) < y ∧ (k : Int) < x ∧
      Seg x y (advance x y c) rest c2

/-- Ascending lexicographic order of the keys (Hue, Saturation, Value): by Hue first, by
Saturation when the Hues are equal, by Value when Hue and Saturation are both equal. -/
def keyLe (a b : entryColor) : Prop :=
  a.Hue < b.Hue ∨ (a.Hue = b.Hue ∧ (a.Sat < b.Sat ∨ (a.Sat = b.Sat ∧ a.Value ≤ b.Value)))

/-- The input of `New` has no nil handle and no image whose pixel count `d` is 0. -/
def ValidImages (images : List (Option Image)) : Prop :=
  ∀ i ∈ images, ∃ img : Image, i = some img ∧ img.pixelCount ≠ 0

/-- The entries have no nil handle and no image whose pixel count `d` is 0. -/
def ValidEntries (entries : List collageEntry) : Prop :=
  ∀ e ∈ entries, ∃ img : Image, e.Image = some img ∧ img.pixelCount ≠ 0

/-! ## Fixtures -/

/-- An image of `w` by `h` pixels, all of colour `c`. -/
def uniformImage (w h : Nat) (c : RGBA) : Image :=
  { minX := 0, minY := 0, maxX := (w : Int), maxY := (h : Int), colorAt := fun _ _ => c }

/-- The channels `RGBA()` of the opaque 8-bit colour `(R, G, B)`. -/
def opaque8 (R G B : Nat) : RGBA := NRGBA.RGBA { R := R, G := G, B := B, A := 255 }

/-- A one-pixel image of the opaque colour `(R, G, B)`. -/
def pixel (R G B : Nat) : Image := uniformImage 1 1 (opaque8 R G B)

/-- Cursor `(row, col, dir)` that the traversal loop holds when it begins pass number `k`
(counting from 0): the start cursor after `k` runs of the loop body. -/
def cursorAt (x y : Int) (k : Nat) : Cursor :=
  (advance x y)^[k] { row := 0, col := 0, dir := true }

/-- The zig-zag order on cells as the specification words it: by anti-diagonal index
`r + c` ascending; within one anti-diagonal by `r` ascending when `r + c` is odd
(down-left) and by `r` descending when `r + c` is even (up-right). -/
def zzLe (p q : Nat × Nat) : Prop :=
  p.1 + p.2 < q.1 + q.2 ∨
    (p.1 + p.2 = q.1 + q.2 ∧ (if (p.1 + p.2) % 2 = 1 then p.1 ≤ q.1 else q.1 ≤ p.1))

instance : DecidableRel zzLe := fun p q => by
  unfold zzLe
  exact inferInstance

/-- The declarative zig-zag reference: the cells `(r, c)` with `0 <= r < y`, `0 <= c < x`
put in the order `zzLe`. -/
def zigzagRef (x y : Int) : List (Nat × Nat) :=
  (rowMajor x y).insertionSort zzLe


/-- Position of the cell `p` in the list of cells `cells` (its length when absent). -/
def cellRank (p : Nat × Nat) : List (Nat × Nat) → Nat
  | [] => 0
  | q :: rest => if q = p then 0 else cellRank p rest + 1

/-- The declarative zig-zag reference for `rearrangeImages`: the cell `(r, c)` that is
number `k` in the order `zigzagRef` receives input entry `k`, and the result lists the
cells row by row, `output[r*x + c] = input[k]`. -/
def rearrangeSpec {α : Type} [Inhabited α] (entries : List α) (x y : Int) : List α :=
  (rowMajor x y).map (fun p => entries.getD (cellRank p (zigzagRef x y)) default)

/-- The sorter leaves a slice that is already in order as it is: it moves elements only
where the comparator reports one that is less than an earlier one, as the insertion
sort that `sort.Slice` runs on short slices does. -/
def KeepsSorted (S : SliceSorter) : Prop :=
  ∀ {α : Type} (lt : α → α → Bool) (xs : List α),
    xs.Pairwise (fun a b => lt b a = false) → S.sort lt xs = xs

/-- The entry's key with the unit hue scaled by 360 instead of 60: the stored Hue is
`60 * h`, so this is the stored Hue times 6. -/
def hue360 (e : collageEntry) : collageEntry :=
  { Image := e.Image, Color := { Hue := e.Color.Hue * 6, Sat := e.Color.Sat, Value := e.Color.Value } }

/-- The pixels of the image in the order in which the two loops of `averageImageColor`
read them. -/
def pixelList (i : Image) : List RGBA :=
  (loopRange i.minY i.maxY).flatMap
    (fun y => (loopRange i.minX i.maxX).map (fun x => i.colorAt x y))

/-- The exact (unbounded) sums of the red, green and blue channels of a list of pixels. -/
def exactSums (ps : List RGBA) : Nat × Nat × Nat :=
  ((ps.map (fun p => p.r)).sum, (ps.map (fun p => p.g)).sum, (ps.map (fun p => p.b)).sum)

/-! # Theorems -/

/-! ## The matrix: reads and writes in range -/

theorem dims_row {α : Type} {m : List (List α)} {Y X r : Nat} (hd : Dims m Y X) (hr : r < Y) :
    (m.getD r []).length = X := by
  obtain ⟨h1, h2⟩ := hd
  have hr2 : r < m.length := by omega
  rw [List.getD_eq_getElem _ _ hr2]
  exact h2 _ (List.getElem_mem _)

theorem dims_put {α : Type} {m : List (List α)} {Y X : Nat} (hd : Dims m Y X) (r k : Nat)
    (e : α) : Dims (put m r k e) Y X := by
  refine ⟨by simp [put, hd.1], ?_⟩
  intro row hrow
  unfold put at hrow
  rcases List.mem_or_eq_of_mem_set hrow with h | h
  · exact hd.2 _ h
  · subst h
    by_cases hr : r < Y
    · have := dims_row hd hr
      simpa using this
    · have : m.length ≤ r := by have := hd.1; omega
      rw [List.set_eq_of_length_le this] at hrow
      exact hd.2 _ hrow

theorem setCell_eq {α : Type} {m : List (List α)} {Y X r k : Nat} (hd : Dims m Y X)
    (hr : r < Y) (hk : k < X) (e : α) :
    setCell m (r : Int) (k : Int) e = some (put m r k e) := by
  have hr2 : r < m.length := by have := hd.1; omega
  have hlen := dims_row hd hr
  rw [List.getD_eq_getElem _ _ hr2] at hlen
  simp [setCell, put, List.getElem?_eq_getElem hr2, List.getD_eq_getElem _ _ hr2, hlen, hk]

theorem readCell_eq {α : Type} [Inhabited α] {m : List (List α)} {Y X i j : Nat}
    (hd : Dims m Y X) (hi : i < Y) (hj : j < X) : readCell m i j = some (cellD m i j) := by
  have hi2 : i < m.length := by have := hd.1; omega
  have hlen := dims_row hd hi
  rw [List.getD_eq_getElem _ _ hi2] at hlen
  have hj2 : j < (m[i]).length := by omega
  simp [readCell, cellD, List.getElem?_eq_getElem hi2, List.getD_eq_getElem _ _ hi2,
    List.getElem?_eq_getElem hj2, List.getD_eq_getElem _ _ hj2]

theorem cellD_put {α : Type} [Inhabited α] {m : List (List α)} {Y X r k : Nat}
    (hd : Dims m Y X) (hr : r < Y) (hk : k < X) (e : α) (r2 k2 : Nat) :
    cellD (put m r k e) r2 k2 = if r2 = r ∧ k2 = k then e else cellD m r2 k2 := by
  have hr2 : r < m.length := by have := hd.1; omega
  have hlen := dims_row hd hr
  rw [List.getD_eq_getElem _ _ hr2] at hlen
  unfold cellD put
  by_cases h1 : r2 = r
  · subst h1
    by_cases h2 : k2 = k
    · subst h2
      simp [List.getD_eq_getElem?_getD, List.getElem?_set, hr2, hlen, hk]
    · have h2b : ¬ k = k2 := fun h => h2 h.symm
      simp [List.getD_eq_getElem?_getD, List.getElem?_set, hr2, h2, h2b]
  · have h1b : ¬ r = r2 := fun h => h1 h.symm
    simp [List.getD_eq_getElem?_getD, List.getElem?_set, h1, h1b]

theorem dims_writeAll {α : Type} {Y X : Nat} (cs : List (Nat × Nat)) :
    ∀ (es : List α) (m : List (List α)), Dims m Y X → Dims (writeAll m cs es) Y X := by
  induction cs with
  | nil => intro es m hd; simpa [writeAll] using hd
  | cons c cs ih =>
    intro es m hd
    obtain ⟨r, k⟩ := c
    cases es with
    | nil => simpa [writeAll] using hd
    | cons e es => simpa [writeAll] using ih es _ (dims_put hd r k e)

/-! ## The traversal follows the zig-zag order -/

theorem seg_append {x y : Int} (as bs : List (Nat × Nat)) :
    ∀ (c c1 c2 : Cursor), Seg x y c as c1 → Seg x y c1 bs c2 → Seg x y c (as ++ bs) c2 := by
  induction as with
  | nil => intro c c1 c2 h1 h2; simp only [Seg] at h1; subst h1; simpa using h2
  | cons a as ih =>
    intro c c1 c2 h1 h2
    obtain ⟨r, k⟩ := a
    simp only [Seg, List.cons_append] at h1 ⊢
    exact ⟨h1.1, h1.2.1, h1.2.2.1, h1.2.2.2.1, ih _ _ _ h1.2.2.2.2 h2⟩

theorem seg_up (X Y s : Nat) (hX : 1 ≤ X) (hY : 1 ≤ Y) (hs : s % 2 = 0) (hsb : s + 1 < X + Y) :
    ∀ (n : Nat), diagLo X s + n ≤ diagHi Y s →
      Seg (X : Int) (Y : Int)
        { row := ((diagLo X s + n : Nat) : Int), col := ((s - (diagLo X s + n) : Nat) : Int),
          dir := true }
        (((List.range' (diagLo X s) (n + 1)).reverse).map (fun r => (r, s - r)))
        (diagStart X Y (s + 1)) := by
  intro n
  induction n with
  | zero =>
    intro h
    simp only [List.range'_one, List.reverse_singleton, List.map_singleton, Seg, Nat.add_zero]
    unfold diagLo diagHi at h
    refine ⟨trivial, trivial, by unfold diagLo; omega, by unfold diagLo; omega, ?_⟩
    have h1 : ¬ ((s + 1) % 2 = 0) := by omega
    simp only [advance, diagStart, if_neg h1, if_true, Bool.not_true]
    unfold diagLo
    split_ifs <;> first | omega | (simp only [Cursor.mk.injEq, and_true]; omega)
  | succ n ih =>
    intro h
    have ih2 := ih (by omega)
    rw [List.range'_concat, List.reverse_append]
    simp only [List.reverse_singleton, List.singleton_append, List.map_cons, Seg, Nat.one_mul]
    unfold diagLo diagHi at h
    refine ⟨trivial, trivial, by unfold diagLo; omega, by unfold diagLo; omega, ?_⟩
    have hadv : advance (X : Int) (Y : Int)
        { row := ((diagLo X s + (n + 1) : Nat) : Int),
          col := ((s - (diagLo X s + (n + 1)) : Nat) : Int), dir := true }
        = { row := ((diagLo X s + n : Nat) : Int), col := ((s - (diagLo X s + n) : Nat) : Int),
            dir := true } := by
      simp only [advance, if_true]
      unfold diagLo
      split_ifs <;> first | omega | (simp only [Cursor.mk.injEq, and_true]; omega)
    rw [hadv]
    exact ih2

theorem seg_down (X Y s : Nat) (hX : 1 ≤ X) (hY : 1 ≤ Y) (hs : s % 2 = 1)
    (hsb : s + 1 < X + Y) :
    ∀ (n r : Nat), diagLo X s ≤ r → r + n = diagHi Y s →
      Seg (X : Int) (Y : Int)
        { row := (r : Int), col := ((s - r : Nat) : Int), dir := false }
        ((List.range' r (n + 1)).map (fun r => (r, s - r)))
        (diagStart X Y (s + 1)) := by
  intro n
  induction n with
  | zero =>
    intro r hlo hhi
    simp only [List.range'_one, List.map_singleton, Seg]
    unfold diagLo at hlo
    unfold diagHi at hhi
    refine ⟨trivial, trivial, by omega, by omega, ?_⟩
    have h1 : (s + 1) % 2 = 0 := by omega
    simp only [advance, diagStart, if_pos h1, Bool.false_eq_true, if_false, Bool.not_false]
    unfold diagHi
    split_ifs <;> first | omega | (simp only [Cursor.mk.injEq, and_true]; omega)
  | succ n ih =>
    intro r hlo hhi
    have ih2 := ih (r + 1) (by omega) (by omega)
    rw [List.range'_succ]
    simp only [List.map_cons, Seg]
    unfold diagLo at hlo
    unfold diagHi at hhi
    refine ⟨trivial, trivial, by omega, by omega, ?_⟩
    have hadv : advance (X : Int) (Y : Int)
        { row := (r : Int), col := ((s - r : Nat) : Int), dir := false }
        = { row := ((r + 1 : Nat) : Int), col := ((s - (r + 1) : Nat) : Int), dir := false } := by
      simp only [advance, Bool.false_eq_true, if_false]
      split_ifs <;> first | omega | (simp only [Cursor.mk.injEq, and_true]; omega)
    rw [hadv]
    exact ih2

theorem seg_diag (X Y s : Nat) (hX : 1 ≤ X) (hY : 1 ≤ Y) (hsb : s + 1 < X + Y) :
    Seg (X : Int) (Y : Int) (diagStart X Y s) (diagCells X Y s) (diagStart X Y (s + 1)) := by
  have hle : diagLo X s ≤ diagHi Y s := by unfold diagLo diagHi; omega
  by_cases hs : s % 2 = 0
  · have h := seg_up X Y s hX hY hs hsb (diagHi Y s - diagLo X s) (by omega)
    have e1 : diagLo X s + (diagHi Y s - diagLo X s) = diagHi Y s := by omega
    have e2 : diagHi Y s - diagLo X s + 1 = diagHi Y s + 1 - diagLo X s := by omega
    rw [e1, e2] at h
    simpa [diagStart, diagCells, diagRows, hs] using h
  · have h := seg_down X Y s hX hY (by omega) hsb (diagHi Y s - diagLo X s) (diagLo X s)
      (le_refl _) (by omega)
    have e2 : diagHi Y s - diagLo X s + 1 = diagHi Y s + 1 - diagLo X s := by omega
    rw [e2] at h
    simpa [diagStart, diagCells, diagRows, hs] using h

theorem seg_diags (X Y : Nat) (hX : 1 ≤ X) (hY : 1 ≤ Y) :
    ∀ (n : Nat), n + 1 ≤ X + Y →
      Seg (X : Int) (Y : Int) { row := 0, col := 0, dir := true }
        ((List.range n).flatMap (diagCells X Y)) (diagStart X Y n) := by
  intro n
  induction n with
  | zero =>
    intro _
    simp [Seg, diagStart, diagHi]
  | succ n ih =>
    intro h
    rw [List.range_succ, List.flatMap_append]
    refine seg_append _ _ _ _ _ (ih (by omega)) ?_
    simpa using seg_diag X Y n hX hY (by omega)

theorem seg_zigzag (X Y : Nat) (hX : 1 ≤ X) (hY : 1 ≤ Y) :
    Seg (X : Int) (Y : Int) { row := 0, col := 0, dir := true } (zigzag X Y)
      (diagStart X Y (X + Y - 1)) :=
  seg_diags X Y hX hY (X + Y - 1) (by omega)

theorem diagStart_last (X Y : Nat) (hX : 1 ≤ X) (hY : 1 ≤ Y) :
    ¬ ((diagStart X Y (X + Y - 1)).row < (Y : Int) ∧ (diagStart X Y (X + Y - 1)).col < (X : Int)) := by
  unfold diagStart diagHi diagLo
  split_ifs <;> simp only [] <;> omega

/-! ## The zig-zag order visits every cell once -/

theorem mem_diagCells (X Y s : Nat) (hX : 1 ≤ X) (hY : 1 ≤ Y) (r k : Nat) :
    (r, k) ∈ diagCells X Y s ↔ r + k = s ∧ r < Y ∧ k < X := by
  unfold diagCells diagRows diagLo diagHi
  split_ifs <;>
    simp only [List.mem_map, List.mem_reverse, List.mem_range'_1, Prod.mk.injEq] <;>
    constructor
  · rintro ⟨a, ha, rfl, rfl⟩; omega
  · rintro ⟨h1, h2, h3⟩; exact ⟨r, by omega, rfl, by omega⟩
  · rintro ⟨a, ha, rfl, rfl⟩; omega
  · rintro ⟨h1, h2, h3⟩; exact ⟨r, by omega, rfl, by omega⟩

theorem nodup_diagCells (X Y s : Nat) : (diagCells X Y s).Nodup := by
  unfold diagCells
  refine List.Nodup.map ?_ ?_
  · intro a b h
    simp only [Prod.mk.injEq] at h
    exact h.1
  · unfold diagRows
    split_ifs
    · exact List.nodup_reverse.mpr (List.nodup_range' _ _)
    · exact List.nodup_range' _ _

theorem mem_zigzag (X Y : Nat) (hX : 1 ≤ X) (hY : 1 ≤ Y) (r k : Nat) :
    (r, k) ∈ zigzag X Y ↔ r < Y ∧ k < X := by
  unfold zigzag
  simp only [List.mem_flatMap, List.mem_range, mem_diagCells X Y _ hX hY]
  constructor
  · rintro ⟨s, _, _, h2, h3⟩; exact ⟨h2, h3⟩
  · rintro ⟨h2, h3⟩; exact ⟨r + k, by omega, rfl, h2, h3⟩

theorem nodup_zigzag (X Y : Nat) (hX : 1 ≤ X) (hY : 1 ≤ Y) : (zigzag X Y).Nodup := by
  unfold zigzag
  rw [List.nodup_flatMap]
  refine ⟨fun s _ => nodup_diagCells X Y s, ?_⟩
  refine List.Pairwise.imp ?_ (List.nodup_range (X + Y - 1))
  intro a b hab
  intro p hpa hpb
  obtain ⟨r, k⟩ := p
  rw [mem_diagCells X Y _ hX hY] at hpa hpb
  exact hab (by omega)

theorem mem_rowMajor (X Y : Nat) (r k : Nat) :
    (r, k) ∈ rowMajor (X : Int) (Y : Int) ↔ r < Y ∧ k < X := by
  unfold rowMajor
  simp only [Int.toNat_ofNat, List.mem_flatMap, List.mem_range, List.mem_map, Prod.mk.injEq]
  constructor
  · rintro ⟨a, ha, b, hb, rfl, rfl⟩; exact ⟨ha, hb⟩
  · rintro ⟨h1, h2⟩; exact ⟨r, h1, k, h2, rfl, rfl⟩

theorem nodup_rowMajor (X Y : Nat) : (rowMajor (X : Int) (Y : Int)).Nodup := by
  unfold rowMajor
  rw [List.nodup_flatMap]
  refine ⟨?_, ?_⟩
  · intro i _
    refine List.Nodup.map ?_ (List.nodup_range _)
    intro a b h
    simp only [Prod.mk.injEq] at h
    exact h.2
  · refine List.Pairwise.imp ?_ (List.nodup_range _)
    intro a b hab p hpa hpb
    simp only [List.mem_map] at hpa hpb
    obtain ⟨_, _, rfl⟩ := hpa
    obtain ⟨_, _, h⟩ := hpb
    simp only [Prod.mk.injEq] at h
    exact hab h.1.symm

theorem zigzag_perm_rowMajor (X Y : Nat) (hX : 1 ≤ X) (hY : 1 ≤ Y) :
    (zigzag X Y).Perm (rowMajor (X : Int) (Y : Int)) := by
  rw [List.perm_ext_iff_of_nodup (nodup_zigzag X Y hX hY) (nodup_rowMajor X Y)]
  rintro ⟨r, k⟩
  rw [mem_zigzag X Y hX hY, mem_rowMajor]

theorem length_rowMajor (X Y : Nat) : (rowMajor (X : Int) (Y : Int)).length = Y * X := by
  unfold rowMajor
  have h : (List.length ∘ fun i : Nat => List.map (fun j => (i, j)) (List.range X))
      = fun _ => X := by
    funext i; simp
  simp [List.length_flatMap, h]

theorem length_zigzag (X Y : Nat) (hX : 1 ≤ X) (hY : 1 ≤ Y) : (zigzag X Y).length = Y * X := by
  rw [(zigzag_perm_rowMajor X Y hX hY).length_eq, length_rowMajor]

theorem fill_seg {α : Type} (X Y : Nat) (entries : List α) (cs : List (Nat × Nat)) :
    ∀ (c c2 : Cursor) (l : Nat) (m : List (List α)), Seg (X : Int) (Y : Int) c cs c2 →
      Dims m Y X → l + cs.length ≤ entries.length →
      fillLoop (X : Int) (Y : Int) entries c l m
        = fillLoop (X : Int) (Y : Int) entries c2 (l + cs.length)
            (writeAll m cs (entries.drop l)) := by
  induction cs with
  | nil =>
    intro c c2 l m hseg _ _
    simp only [Seg] at hseg
    subst hseg
    simp [writeAll]
  | cons a cs ih =>
    intro c c2 l m hseg hd hlen
    obtain ⟨r, k⟩ := a
    simp only [Seg] at hseg
    obtain ⟨hr, hk, hrY, hkX, hrest⟩ := hseg
    simp only [List.length_cons] at hlen
    have hl : l < entries.length := by omega
    rw [fillLoop]
    have hcond : c.row < (Y : Int) ∧ c.col < (X : Int) := by rw [hr, hk]; exact ⟨hrY, hkX⟩
    rw [dif_pos hcond, List.getElem?_eq_getElem hl]
    simp only []
    rw [hr, hk, setCell_eq hd (by omega) (by omega)]
    simp only []
    rw [ih _ _ _ _ hrest (dims_put hd r k _) (by omega), List.drop_eq_getElem_cons hl]
    simp only [writeAll, List.length_cons]
    congr 1
    omega

theorem fill_short {α : Type} (X Y : Nat) (entries : List α) (cs : List (Nat × Nat)) :
    ∀ (c c2 : Cursor) (l : Nat) (m : List (List α)), Seg (X : Int) (Y : Int) c cs c2 →
      Dims m Y X → l ≤ entries.length → entries.length < l + cs.length →
      fillLoop (X : Int) (Y : Int) entries c l m = .error .indexOutOfRange := by
  induction cs with
  | nil =>
    intro c c2 l m _ _ h1 h2
    simp only [List.length_nil] at h2
    omega
  | cons a cs ih =>
    intro c c2 l m hseg hd h1 h2
    obtain ⟨r, k⟩ := a
    simp only [Seg] at hseg
    obtain ⟨hr, hk, hrY, hkX, hrest⟩ := hseg
    simp only [List.length_cons] at h2
    rw [fillLoop]
    have hcond : c.row < (Y : Int) ∧ c.col < (X : Int) := by rw [hr, hk]; exact ⟨hrY, hkX⟩
    rw [dif_pos hcond]
    by_cases hl : l < entries.length
    · rw [List.getElem?_eq_getElem hl]
      simp only []
      rw [hr, hk, setCell_eq hd (by omega) (by omega)]
      simp only []
      exact ih _ _ _ _ hrest (dims_put hd r k _) (by omega) (by omega)
    · rw [List.getElem?_eq_none (by omega)]

theorem fill_ok {α : Type} (X Y : Nat) (hX : 1 ≤ X) (hY : 1 ≤ Y) (entries : List α)
    (m : List (List α)) (hd : Dims m Y X) (hlen : Y * X ≤ entries.length) :
    fillLoop (X : Int) (Y : Int) entries { row := 0, col := 0, dir := true } 0 m
      = .ok (writeAll m (zigzag X Y) entries) := by
  rw [fill_seg X Y entries (zigzag X Y) _ _ 0 m (seg_zigzag X Y hX hY) hd
    (by rw [length_zigzag X Y hX hY]; omega)]
  rw [fillLoop, dif_neg (diagStart_last X Y hX hY)]
  simp

theorem fill_err {α : Type} (X Y : Nat) (hX : 1 ≤ X) (hY : 1 ≤ Y) (entries : List α)
    (m : List (List α)) (hd : Dims m Y X) (hlen : entries.length < Y * X) :
    fillLoop (X : Int) (Y : Int) entries { row := 0, col := 0, dir := true } 0 m
      = .error .indexOutOfRange :=
  fill_short X Y entries (zigzag X Y) _ _ 0 m (seg_zigzag X Y hX hY) hd (Nat.zero_le _)
    (by rw [length_zigzag X Y hX hY]; omega)

theorem cellD_writeAll_of_not_mem {α : Type} [Inhabited α] {Y X : Nat} (r k : Nat)
    (cs : List (Nat × Nat)) :
    ∀ (es : List α) (m : List (List α)), Dims m Y X → (∀ p ∈ cs, p.1 < Y ∧ p.2 < X) →
      (r, k) ∉ cs → cellD (writeAll m cs es) r k = cellD m r k := by
  induction cs with
  | nil => intro es m _ _ _; simp [writeAll]
  | cons c cs ih =>
    intro es m hd hin hnot
    obtain ⟨r1, k1⟩ := c
    cases es with
    | nil => simp [writeAll]
    | cons e es =>
      simp only [writeAll]
      have hb := hin (r1, k1) (List.mem_cons_self _ _)
      rw [ih es _ (dims_put hd r1 k1 e) (fun p hp => hin p (List.mem_cons_of_mem _ hp))
        (fun h => hnot (List.mem_cons_of_mem _ h)), cellD_put hd hb.1 hb.2]
      have hne : ¬ (r = r1 ∧ k = k1) := by
        rintro ⟨rfl, rfl⟩
        exact hnot (List.mem_cons_self _ _)
      rw [if_neg hne]

theorem map_cellD_writeAll {α : Type} [Inhabited α] {Y X : Nat} (cs : List (Nat × Nat)) :
    ∀ (es : List α) (m : List (List α)), Dims m Y X → (∀ p ∈ cs, p.1 < Y ∧ p.2 < X) →
      cs.Nodup → cs.length ≤ es.length →
      cs.map (fun p => cellD (writeAll m cs es) p.1 p.2) = es.take cs.length := by
  induction cs with
  | nil => intro es m _ _ _ _; simp
  | cons c cs ih =>
    intro es m hd hin hnd hlen
    obtain ⟨r1, k1⟩ := c
    cases es with
    | nil => simp at hlen
    | cons e es =>
      have hb := hin (r1, k1) (List.mem_cons_self _ _)
      have hin2 : ∀ p ∈ cs, p.1 < Y ∧ p.2 < X := fun p hp => hin p (List.mem_cons_of_mem _ hp)
      rw [List.nodup_cons] at hnd
      simp only [List.length_cons, Nat.add_le_add_iff_right] at hlen
      simp only [writeAll, List.map_cons, List.length_cons, List.take_succ_cons]
      rw [ih es _ (dims_put hd r1 k1 e) hin2 hnd.2 hlen,
        cellD_writeAll_of_not_mem r1 k1 cs es _ (dims_put hd r1 k1 e) hin2 hnd.1,
        cellD_put hd hb.1 hb.2]
      simp

theorem writeBack_eq {α : Type} [Inhabited α] {Y X : Nat} (m : List (List α))
    (hd : Dims m Y X) (cells : List (Nat × Nat)) :
    ∀ (entries : List α) (l : Nat), (∀ p ∈ cells, p.1 < Y ∧ p.2 < X) →
      l + cells.length ≤ entries.length →
      writeBack m cells entries l
        = (entries.take l ++ cells.map (fun p => cellD m p.1 p.2)
            ++ entries.drop (l + cells.length), none) := by
  induction cells with
  | nil => intro entries l _ _; simp [writeBack]
  | cons c cells ih =>
    intro entries l hin hlen
    obtain ⟨i, j⟩ := c
    have hb := hin (i, j) (List.mem_cons_self _ _)
    simp only [List.length_cons] at hlen
    have hl : l < entries.length := by omega
    simp only [writeBack, readCell_eq hd hb.1 hb.2, if_pos hl]
    rw [ih _ _ (fun p hp => hin p (List.mem_cons_of_mem _ hp)) (by simp; omega)]
    have h1 : (entries.set l (cellD m i j)).take (l + 1) = entries.take l ++ [cellD m i j] := by
      have h0 : (entries.set l (cellD m i j)).take l = entries.take l := by
        rw [List.set_take, List.set_eq_of_length_le (by simp)]
      rw [List.take_succ, h0]
      simp [List.getElem?_set, hl]
    have h2 : (entries.set l (cellD m i j)).drop (l + 1 + cells.length)
        = entries.drop (l + (cells.length + 1)) := by
      rw [List.drop_set_of_lt _ _ (by omega)]
      congr 1
      omega
    rw [h1, h2]
    simp

theorem dims_replicate {α : Type} (Y X : Nat) (a : α) :
    Dims (List.replicate Y (List.replicate X a)) Y X := by
  refine ⟨by simp, ?_⟩
  intro row hrow
  rw [List.eq_of_mem_replicate hrow]
  simp

theorem zigzag_inBounds (X Y : Nat) (hX : 1 ≤ X) (hY : 1 ≤ Y) :
    ∀ p ∈ zigzag X Y, p.1 < Y ∧ p.2 < X := by
  rintro ⟨r, k⟩ hp
  exact (mem_zigzag X Y hX hY r k).mp hp

theorem rowMajor_inBounds (X Y : Nat) :
    ∀ p ∈ rowMajor (X : Int) (Y : Int), p.1 < Y ∧ p.2 < X := by
  rintro ⟨r, k⟩ hp
  exact (mem_rowMajor X Y r k).mp hp

/-- Closed form of `rearrangeImages` on a grid with at least one row and one column and at
least `x*y` entries: the first `x*y` slots hold the zig-zag matrix read row by row,
the other slots are kept. -/
theorem rearrangeImages_eq {α : Type} [Inhabited α] (X Y : Nat) (hX : 1 ≤ X) (hY : 1 ≤ Y)
    (entries : List α) (hlen : Y * X ≤ entries.length) :
    rearrangeImages entries (X : Int) (Y : Int)
      = ((rowMajor (X : Int) (Y : Int)).map
            (fun p => cellD (writeAll (List.replicate Y (List.replicate X default))
              (zigzag X Y) entries) p.1 p.2)
          ++ entries.drop (Y * X), none) := by
  have hd : Dims (List.replicate Y (List.replicate X (default : α))) Y X := dims_replicate Y X _
  have hmk : makeMatrix (X : Int) (Y : Int)
      = (.ok (List.replicate Y (List.replicate X default)) : Except Panic (List (List α))) := by
    have h1 : ¬ ((Y : Int) < 0) := by omega
    have h2 : ¬ (0 < (Y : Int) ∧ (X : Int) < 0) := by omega
    simp [makeMatrix, h1, h2]
  unfold rearrangeImages
  rw [hmk]
  simp only []
  rw [fill_ok X Y hX hY entries _ hd hlen]
  simp only []
  rw [writeBack_eq _ (dims_writeAll _ _ _ hd) _ _ _ (rowMajor_inBounds X Y)
    (by rw [length_rowMajor]; omega)]
  simp [length_rowMajor]

theorem rearrangeImages_err {α : Type} [Inhabited α] (X Y : Nat) (hX : 1 ≤ X) (hY : 1 ≤ Y)
    (entries : List α) (hlen : entries.length < Y * X) :
    rearrangeImages entries (X : Int) (Y : Int) = (entries, some .indexOutOfRange) := by
  have hd : Dims (List.replicate Y (List.replicate X (default : α))) Y X := dims_replicate Y X _
  have hmk : makeMatrix (X : Int) (Y : Int)
      = (.ok (List.replicate Y (List.replicate X default)) : Except Panic (List (List α))) := by
    have h1 : ¬ ((Y : Int) < 0) := by omega
    have h2 : ¬ (0 < (Y : Int) ∧ (X : Int) < 0) := by omega
    simp [makeMatrix, h1, h2]
  unfold rearrangeImages
  rw [hmk]
  simp only []
  rw [fill_err X Y hX hY entries _ hd hlen]

theorem rearrangeImages_perm_take {α : Type} [Inhabited α] (X Y : Nat) (hX : 1 ≤ X)
    (hY : 1 ≤ Y) (entries : List α) (hlen : Y * X ≤ entries.length) :
    ((rowMajor (X : Int) (Y : Int)).map
        (fun p => cellD (writeAll (List.replicate Y (List.replicate X default))
          (zigzag X Y) entries) p.1 p.2)).Perm (entries.take (Y * X)) := by
  have hd : Dims (List.replicate Y (List.replicate X (default : α))) Y X := dims_replicate Y X _
  have h := map_cellD_writeAll (zigzag X Y) entries _ hd (zigzag_inBounds X Y hX hY)
    (nodup_zigzag X Y hX hY) (by rw [length_zigzag X Y hX hY]; exact hlen)
  rw [length_zigzag X Y hX hY] at h
  rw [← h]
  exact ((zigzag_perm_rowMajor X Y hX hY).map _).symm

/-- C1. For every width x >= 1, height y >= 1 and entry sequence of length x*y,
rearrangeImages ends without a panic and leaves a sequence of the same length that is
a permutation of its input: no entry is lost or duplicated. -/
theorem rearrangeImages_perm {α : Type} [Inhabited α] (entries : List α) (x y : Int)
    (hx : 1 ≤ x) (hy : 1 ≤ y) (hlen : (entries.length : Int) = x * y) :
    (rearrangeImages entries x y).2 = none ∧
      (rearrangeImages entries x y).1.length = entries.length ∧
      (rearrangeImages entries x y).1.Perm entries := by
  obtain ⟨X, rfl⟩ := Int.eq_ofNat_of_zero_le (by omega : 0 ≤ x)
  obtain ⟨Y, rfl⟩ := Int.eq_ofNat_of_zero_le (by omega : 0 ≤ y)
  have hX : 1 ≤ X := by omega
  have hY : 1 ≤ Y := by omega
  have hl : entries.length = Y * X := by
    have : ((entries.length : Nat) : Int) = ((Y * X : Nat) : Int) := by
      rw [hlen]; push_cast; ring
    exact_mod_cast this
  rw [rearrangeImages_eq X Y hX hY entries (by omega)]
  have hp := rearrangeImages_perm_take X Y hX hY entries (by omega)
  have hdrop : entries.drop (Y * X) = [] := by
    rw [List.drop_eq_nil_iff]; omega
  have htake : entries.take (Y * X) = entries := List.take_of_length_le (by omega)
  rw [htake] at hp
  rw [hdrop]
  simp only [List.append_nil]
  exact ⟨trivial, hp.length_eq, hp⟩

/-- Witness for C1: a 3 by 2 grid of six labelled entries. -/
theorem rearrangeImages_perm_witness :
    ((rearrangeImages [10, 20, 30, 40, 50, 60] 3 2).2 = none ∧
      (rearrangeImages [10, 20, 30, 40, 50, 60] 3 2).1.length
        = [10, 20, 30, 40, 50, 60].length ∧
      (rearrangeImages [10, 20, 30, 40, 50, 60] 3 2).1.Perm [10, 20, 30, 40, 50, 60]) :=
  rearrangeImages_perm [10, 20, 30, 40, 50, 60] 3 2 (by decide) (by decide) (by decide)

/-- C2. Golden grids of rearrangeImages on labelled tokens in sorted order:
2 by 2 gives [0,1,2,3]; width 3, height 2 gives [0,1,4,2,3,5];
3 by 3 gives [0,1,5,2,4,6,3,7,8]; each run ends without a panic. -/
theorem rearrangeImages_golden :
    rearrangeImages [0, 1, 2, 3] 2 2 = ([0, 1, 2, 3], none) ∧
      rearrangeImages [0, 1, 2, 3, 4, 5] 3 2 = ([0, 1, 4, 2, 3, 5], none) ∧
      rearrangeImages [0, 1, 2, 3, 4, 5, 6, 7, 8] 3 3
        = ([0, 1, 5, 2, 4, 6, 3, 7, 8], none) := by
  refine ⟨?_, ?_, ?_⟩ <;>
    simp [rearrangeImages, makeMatrix, fillLoop, advance, setCell, rowMajor, writeBack,
      readCell]

/-! ## Colour Reducer -/

theorem premultiply_alpha255 (v : Nat) (hv : v < 256) : premultiply v 255 = v * 257 := by
  unfold premultiply
  interval_cases v <;> rfl

theorem foldl_addPixel_const (c : RGBA) (xs : List Int) :
    ∀ (acc : Nat × Nat × Nat), acc.1 < 4294967296 → acc.2.1 < 4294967296 →
      acc.2.2 < 4294967296 →
      xs.foldl (fun acc _ => addPixel acc c) acc
        = ((acc.1 + xs.length * c.r) % 4294967296, (acc.2.1 + xs.length * c.g) % 4294967296,
            (acc.2.2 + xs.length * c.b) % 4294967296) := by
  induction xs with
  | nil =>
    intro acc h1 h2 h3
    simp [Nat.mod_eq_of_lt h1, Nat.mod_eq_of_lt h2, Nat.mod_eq_of_lt h3]
  | cons x xs ih =>
    intro acc h1 h2 h3
    simp only [List.foldl_cons, List.length_cons]
    rw [ih (addPixel acc c) (Nat.mod_lt _ (by norm_num)) (Nat.mod_lt _ (by norm_num))
      (Nat.mod_lt _ (by norm_num))]
    simp only [addPixel, Prod.mk.injEq, Nat.add_mul, Nat.one_mul]
    refine ⟨?_, ?_, ?_⟩ <;> omega

theorem foldl_rows_const (k : Nat × Nat × Nat) (f : Nat × Nat × Nat → Int → Nat × Nat × Nat)
    (hf : ∀ (acc : Nat × Nat × Nat) (y : Int), acc.1 < 4294967296 → acc.2.1 < 4294967296 →
      acc.2.2 < 4294967296 →
      f acc y = ((acc.1 + k.1) % 4294967296, (acc.2.1 + k.2.1) % 4294967296,
          (acc.2.2 + k.2.2) % 4294967296))
    (ys : List Int) :
    ∀ (acc : Nat × Nat × Nat), acc.1 < 4294967296 → acc.2.1 < 4294967296 →
      acc.2.2 < 4294967296 →
      ys.foldl f acc
        = ((acc.1 + ys.length * k.1) % 4294967296, (acc.2.1 + ys.length * k.2.1) % 4294967296,
            (acc.2.2 + ys.length * k.2.2) % 4294967296) := by
  induction ys with
  | nil =>
    intro acc h1 h2 h3
    simp [Nat.mod_eq_of_lt h1, Nat.mod_eq_of_lt h2, Nat.mod_eq_of_lt h3]
  | cons y ys ih =>
    intro acc h1 h2 h3
    simp only [List.foldl_cons, List.length_cons]
    rw [hf acc y h1 h2 h3, ih _ (Nat.mod_lt _ (by norm_num)) (Nat.mod_lt _ (by norm_num))
      (Nat.mod_lt _ (by norm_num))]
    simp only [Prod.mk.injEq, Nat.add_mul, Nat.one_mul]
    refine ⟨?_, ?_, ?_⟩ <;> omega

theorem length_loopRange (lo hi : Int) : (loopRange lo hi).length = (hi - lo).toNat := by
  unfold loopRange
  rw [List.length_map, List.length_range]

/-- Channel sums of a uniform image: `w*h` times the pixel value, wrapped to 32 bits. -/
theorem sumPixels_uniform (w h : Nat) (c : RGBA) :
    sumPixels (uniformImage w h c)
      = ((h * (w * c.r)) % 4294967296, (h * (w * c.g)) % 4294967296,
          (h * (w * c.b)) % 4294967296) := by
  unfold sumPixels uniformImage
  simp only []
  rw [foldl_rows_const (w * c.r, w * c.g, w * c.b) _ _ _ (0, 0, 0) (by norm_num) (by norm_num)
    (by norm_num)]
  · simp [length_loopRange]
  · intro acc y h1 h2 h3
    rw [foldl_addPixel_const c _ acc h1 h2 h3, length_loopRange]
    simp

theorem pixelCount_uniform (w h : Nat) (c : RGBA) :
    (uniformImage w h c).pixelCount = (h * w) % 4294967296 := by
  unfold Image.pixelCount uniformImage
  simp only [sub_zero]
  omega

theorem opaque8_channels (R G B : Nat) (hR : R < 256) (hG : G < 256) (hB : B < 256) :
    opaque8 R G B = { r := R * 257, g := G * 257, b := B * 257, a := 65535 } := by
  unfold opaque8 NRGBA.RGBA
  simp only [premultiply_alpha255 R hR, premultiply_alpha255 G hG, premultiply_alpha255 B hB]
  rfl

/-- A uniform image of at most 65537 pixels averages to its own colour. -/
theorem averageImageColor_uniform_small (w h R G B : Nat) (hpos : 1 ≤ h * w)
    (hsmall : h * w ≤ 65537) (hR : R < 256) (hG : G < 256) (hB : B < 256) :
    averageImageColor (uniformImage w h (opaque8 R G B))
      = .ok { R := R, G := G, B := B, A := 255 } := by
  have key : ∀ v : Nat, v < 256 →
      (h * (w * (v * 257))) % 4294967296 / (h * w % 4294967296) / 257 % 256 = v := by
    intro v hv
    have e : h * (w * (v * 257)) = (h * w) * (v * 257) := by ring
    have hb : (h * w) * (v * 257) ≤ 65537 * (255 * 257) :=
      Nat.mul_le_mul hsmall (by omega)
    have h1 : (h * w) * (v * 257) % 4294967296 = (h * w) * (v * 257) :=
      Nat.mod_eq_of_lt (by omega)
    have h2 : h * w % 4294967296 = h * w := Nat.mod_eq_of_lt (by omega)
    rw [e, h1, h2, Nat.mul_div_cancel_left _ (by omega : 0 < h * w),
      Nat.mul_div_cancel _ (by norm_num)]
    exact Nat.mod_eq_of_lt hv
  unfold averageImageColor
  simp only [sumPixels_uniform, pixelCount_uniform, opaque8_channels R G B hR hG hB]
  rw [if_neg (by rw [Nat.mod_eq_of_lt (by omega : h * w < 4294967296)]; omega)]
  simp only [key R hR, key G hG, key B hB]

/-- C4 (failing input). A uniform white image of 256 by 257 pixels: the `uint32` channel
sums wrap past 2^32 and averageImageColor returns black. -/
theorem averageImageColor_white_256x257 :
    averageImageColor (uniformImage 256 257 (opaque8 255 255 255))
      = .ok { R := 0, G := 0, B := 0, A := 255 } := by
  unfold averageImageColor
  simp only [sumPixels_uniform, pixelCount_uniform,
    opaque8_channels 255 255 255 (by norm_num) (by norm_num) (by norm_num)]
  rfl

theorem pixelCount_zero_area (i : Image)
    (h : i.maxX - i.minX = 0 ∨ i.maxY - i.minY = 0) : i.pixelCount = 0 := by
  unfold Image.pixelCount
  rcases h with h | h <;> simp [h]

theorem averageImageColor_of_pixelCount_zero (i : Image) (h : i.pixelCount = 0) :
    averageImageColor i = .error .integerDivideByZero := by
  unfold averageImageColor
  simp [h]

/-- C7 (counterexample). On an image 0 pixels wide and 5 high the Colour Reducer does
no check before the reduction: it runs into the division by the zero pixel count,
which ends averageImageColor and getImageColor with the divide-by-zero panic. -/
theorem zero_area_divides_by_zero :
    averageImageColor (uniformImage 0 5 (opaque8 1 2 3)) = .error .integerDivideByZero ∧
      getImageColor (some (uniformImage 0 5 (opaque8 1 2 3)))
        = .error .integerDivideByZero := by
  have h : (uniformImage 0 5 (opaque8 1 2 3)).pixelCount = 0 := by
    rw [pixelCount_uniform]
  have h2 := averageImageColor_of_pixelCount_zero _ h
  refine ⟨h2, ?_⟩
  simp only [getImageColor, h2]

/-- C7 (amended). For every image whose bounding rectangle has width 0 or height 0,
averageImageColor and getImageColor return no colour: the pixel count is 0 and the
call ends in the integer-divide-by-zero panic of the division itself. -/
theorem zero_area_panics (i : Image) (h : i.maxX - i.minX = 0 ∨ i.maxY - i.minY = 0) :
    averageImageColor i = .error .integerDivideByZero ∧
      getImageColor (some i) = .error .integerDivideByZero := by
  have h2 := averageImageColor_of_pixelCount_zero i (pixelCount_zero_area i h)
  refine ⟨h2, ?_⟩
  simp only [getImageColor, h2]

/-- Witness for C7: an image 4 pixels wide and 0 high. -/
theorem zero_area_panics_witness :
    ((uniformImage 4 0 (opaque8 9 9 9)).maxX - (uniformImage 4 0 (opaque8 9 9 9)).minX = 0 ∨
        (uniformImage 4 0 (opaque8 9 9 9)).maxY - (uniformImage 4 0 (opaque8 9 9 9)).minY = 0) ∧
      averageImageColor (uniformImage 4 0 (opaque8 9 9 9)) = .error .integerDivideByZero ∧
      getImageColor (some (uniformImage 4 0 (opaque8 9 9 9))) = .error .integerDivideByZero :=
  ⟨Or.inr (by simp [uniformImage]),
    zero_area_panics (uniformImage 4 0 (opaque8 9 9 9)) (Or.inr (by simp [uniformImage]))⟩

/-! ## HSV fixtures and ranges -/

theorem hsv_red : hsv (opaque8 255 0 0) = (0, 1, 65535 / 65536) := by
  rw [opaque8_channels 255 0 0 (by norm_num) (by norm_num) (by norm_num)]
  simp [hsv, normalize, hueSector]
  norm_num

theorem hsv_green : hsv (opaque8 0 255 0) = (2 / 6, 1, 65535 / 65536) := by
  rw [opaque8_channels 0 255 0 (by norm_num) (by norm_num) (by norm_num)]
  simp [hsv, normalize, hueSector]
  norm_num

theorem hsv_blue : hsv (opaque8 0 0 255) = (4 / 6, 1, 65535 / 65536) := by
  rw [opaque8_channels 0 0 255 (by norm_num) (by norm_num) (by norm_num)]
  simp [hsv, normalize, hueSector]
  norm_num

theorem hsv_gray (g : Nat) (hg : g < 256) :
    hsv (opaque8 g g g) = (0, 0, ((g : ℚ) * 257) / 65536) := by
  rw [opaque8_channels g g g hg hg hg]
  simp [hsv, normalize]

theorem getImageColor_uniform_small (w h R G B : Nat) (hpos : 1 ≤ h * w)
    (hsmall : h * w ≤ 65537) (hR : R < 256) (hG : G < 256) (hB : B < 256) :
    getImageColor (some (uniformImage w h (opaque8 R G B)))
      = .ok { Hue := (hsv (opaque8 R G B)).1 * 60, Sat := (hsv (opaque8 R G B)).2.1,
              Value := (hsv (opaque8 R G B)).2.2 } := by
  simp only [getImageColor, averageImageColor_uniform_small w h R G B hpos hsmall hR hG hB]
  rfl

/-- C8. With the arithmetic read exactly and the channels of an opaque 8-bit colour equal
to c*257/65536, hsv maps pure red to (0, 1, max), pure green to (2/6, 1, max), pure
blue to (4/6, 1, max), white, black and every gray (g,g,g) to hue 0, saturation 0 and
value g*257/65536 (0 for black); getImageColor stores Hue = 60 * unit hue, that is
0, 20 and 40 for a red, a green and a blue pixel. -/
theorem hsv_fixtures :
    hsv (opaque8 255 0 0) = (0, 1, (255 * 257 : ℚ) / 65536) ∧
      hsv (opaque8 0 255 0) = (2 / 6, 1, (255 * 257 : ℚ) / 65536) ∧
      hsv (opaque8 0 0 255) = (4 / 6, 1, (255 * 257 : ℚ) / 65536) ∧
      hsv (opaque8 255 255 255) = (0, 0, (255 * 257 : ℚ) / 65536) ∧
      hsv (opaque8 0 0 0) = (0, 0, 0) ∧
      (∀ g : Fin 256, hsv (opaque8 g g g) = (0, 0, ((g : Nat) * 257 : ℚ) / 65536)) ∧
      getImageColor (some (uniformImage 1 1 (opaque8 255 0 0)))
        = .ok { Hue := 0, Sat := 1, Value := (255 * 257 : ℚ) / 65536 } ∧
      getImageColor (some (uniformImage 1 1 (opaque8 0 255 0)))
        = .ok { Hue := 20, Sat := 1, Value := (255 * 257 : ℚ) / 65536 } ∧
      getImageColor (some (uniformImage 1 1 (opaque8 0 0 255)))
        = .ok { Hue := 40, Sat := 1, Value := (255 * 257 : ℚ) / 65536 } := by
  refine ⟨?_, ?_, ?_, ?_, ?_, ?_, ?_, ?_, ?_⟩
  · rw [hsv_red]; norm_num
  · rw [hsv_green]; norm_num
  · rw [hsv_blue]; norm_num
  · rw [hsv_gray 255 (by norm_num)]; norm_num
  · rw [hsv_gray 0 (by norm_num)]; norm_num
  · intro g; exact hsv_gray g g.isLt
  · rw [getImageColor_uniform_small 1 1 255 0 0 (by norm_num) (by norm_num) (by norm_num)
      (by norm_num) (by norm_num), hsv_red]
    norm_num
  · rw [getImageColor_uniform_small 1 1 0 255 0 (by norm_num) (by norm_num) (by norm_num)
      (by norm_num) (by norm_num), hsv_green]
    norm_num
  · rw [getImageColor_uniform_small 1 1 0 0 255 (by norm_num) (by norm_num) (by norm_num)
      (by norm_num) (by norm_num), hsv_blue]
    norm_num

theorem ratio_bounds (a b d : ℚ) (hd : 0 < d) (h1 : a - b ≤ d) (h2 : b - a ≤ d) :
    -1 ≤ (a - b) / d ∧ (a - b) / d ≤ 1 := by
  constructor
  · rw [le_div_iff₀ hd]; linarith
  · rw [div_le_iff₀ hd]; linarith

theorem hueSector_range (fR fG fB : ℚ)
    (hne : max (max fR fG) fB ≠ min (min fR fG) fB) :
    0 ≤ hueSector fR fG fB (max (max fR fG) fB) (max (max fR fG) fB - min (min fR fG) fB) ∧
      hueSector fR fG fB (max (max fR fG) fB) (max (max fR fG) fB - min (min fR fG) fB) < 6 := by
  have hR1 : fR ≤ max (max fR fG) fB := le_trans (le_max_left _ _) (le_max_left _ _)
  have hG1 : fG ≤ max (max fR fG) fB := le_trans (le_max_right _ _) (le_max_left _ _)
  have hB1 : fB ≤ max (max fR fG) fB := le_max_right _ _
  have hR2 : min (min fR fG) fB ≤ fR := le_trans (min_le_left _ _) (min_le_left _ _)
  have hG2 : min (min fR fG) fB ≤ fG := le_trans (min_le_left _ _) (min_le_right _ _)
  have hB2 : min (min fR fG) fB ≤ fB := min_le_right _ _
  generalize max (max fR fG) fB = mx at *
  generalize min (min fR fG) fB = mn at *
  have hd : 0 < mx - mn := by
    have : mn ≤ mx := le_trans hR2 hR1
    have : mn ≠ mx := fun h => hne h.symm
    have : mn < mx := lt_of_le_of_ne ‹mn ≤ mx› this
    linarith
  unfold hueSector
  split_ifs with h1 h2 h3 h4
  · have hb := ratio_bounds fG fB (mx - mn) hd (by linarith) (by linarith)
    have hneg : (fG - fB) / (mx - mn) < 0 := div_neg_of_neg_of_pos (by linarith) hd
    constructor <;> linarith [hb.1, hb.2]
  · have hb := ratio_bounds fG fB (mx - mn) hd (by linarith) (by linarith)
    have hnn : 0 ≤ (fG - fB) / (mx - mn) := div_nonneg (by linarith) (le_of_lt hd)
    constructor <;> linarith [hb.1, hb.2]
  · have hb := ratio_bounds fB fR (mx - mn) hd (by linarith) (by linarith)
    constructor <;> linarith [hb.1, hb.2]
  · have hb := ratio_bounds fR fG (mx - mn) hd (by linarith) (by linarith)
    constructor <;> linarith [hb.1, hb.2]
  · constructor <;> norm_num

theorem hsv_range (c : RGBA) (hr : c.r ≤ 65535) (hg : c.g ≤ 65535) (hb : c.b ≤ 65535) :
    0 ≤ (hsv c).1 ∧ (hsv c).1 < 1 ∧ 0 ≤ (hsv c).2.1 ∧ (hsv c).2.1 ≤ 1 ∧
      0 ≤ (hsv c).2.2 ∧ (hsv c).2.2 ≤ 1 := by
  have hr0 : (0 : ℚ) ≤ (normalize c).1 := by unfold normalize; positivity
  have hg0 : (0 : ℚ) ≤ (normalize c).2.1 := by unfold normalize; positivity
  have hb0 : (0 : ℚ) ≤ (normalize c).2.2 := by unfold normalize; positivity
  have hr1 : (normalize c).1 ≤ 1 := by
    unfold normalize
    have : (c.r : ℚ) ≤ 65535 := by exact_mod_cast hr
    simp only []
    rw [div_le_one (by norm_num)]
    linarith
  have hg1 : (normalize c).2.1 ≤ 1 := by
    unfold normalize
    have : (c.g : ℚ) ≤ 65535 := by exact_mod_cast hg
    simp only []
    rw [div_le_one (by norm_num)]
    linarith
  have hb1 : (normalize c).2.2 ≤ 1 := by
    unfold normalize
    have : (c.b : ℚ) ≤ 65535 := by exact_mod_cast hb
    simp only []
    rw [div_le_one (by norm_num)]
    linarith
  unfold hsv
  simp only []
  generalize (normalize c).1 = fR at *
  generalize (normalize c).2.1 = fG at *
  generalize (normalize c).2.2 = fB at *
  have hmx0 : 0 ≤ max (max fR fG) fB := le_trans hr0 (le_trans (le_max_left _ _) (le_max_left _ _))
  have hmx1 : max (max fR fG) fB ≤ 1 := max_le (max_le hr1 hg1) hb1
  have hmn0 : 0 ≤ min (min fR fG) fB := le_min (le_min hr0 hg0) hb0
  have hmnmx : min (min fR fG) fB ≤ max (max fR fG) fB :=
    le_trans (min_le_right _ _) (le_max_right _ _)
  refine ⟨?_, ?_, ?_, ?_, hmx0, hmx1⟩
  · split_ifs with h
    · exact le_refl _
    · exact div_nonneg (hueSector_range fR fG fB h).1 (by norm_num)
  · split_ifs with h
    · norm_num
    · rw [div_lt_one (by norm_num)]
      exact (hueSector_range fR fG fB h).2
  · split_ifs with h
    · exact div_nonneg (by linarith) hmx0
    · exact le_refl _
  · split_ifs with h
    · rw [div_le_one h]; linarith
    · norm_num

theorem averageImageColor_channels (i : Image) (c : NRGBA) (h : averageImageColor i = .ok c) :
    c.R < 256 ∧ c.G < 256 ∧ c.B < 256 ∧ c.A = 255 := by
  unfold averageImageColor at h
  simp only [] at h
  split_ifs at h
  injection h with h
  subst h
  simp only []
  refine ⟨Nat.mod_lt _ (by norm_num), Nat.mod_lt _ (by norm_num), Nat.mod_lt _ (by norm_num), trivial⟩

theorem getImageColor_range (i : Option Image) (key : entryColor)
    (h : getImageColor i = .ok key) :
    0 ≤ key.Hue ∧ key.Hue < 60 ∧ 0 ≤ key.Sat ∧ key.Sat ≤ 1 ∧ 0 ≤ key.Value ∧ key.Value ≤ 1 := by
  cases i with
  | none => simp [getImageColor] at h
  | some img =>
    simp only [getImageColor] at h
    cases hc : averageImageColor img with
    | error p => rw [hc] at h; simp at h
    | ok c =>
      rw [hc] at h
      simp only [] at h
      injection h with h
      subst h
      obtain ⟨hR, hG, hB, hA⟩ := averageImageColor_channels img c hc
      have hch : c.RGBA = opaque8 c.R c.G c.B := by
        unfold opaque8
        rw [← hA]
      rw [hch, opaque8_channels c.R c.G c.B hR hG hB]
      have hb := hsv_range { r := c.R * 257, g := c.G * 257, b := c.B * 257, a := 65535 }
        (by simp only []; omega) (by simp only []; omega) (by simp only []; omega)
      simp only []
      refine ⟨by linarith [hb.1], by linarith [hb.2.1], hb.2.2.1, hb.2.2.2.1, hb.2.2.2.2.1,
        hb.2.2.2.2.2⟩

/-- C9. For every colour with 16-bit channels in 0..65535 (arithmetic read exactly):
each hue branch of hsv yields a number in [0,6) before the division by 6, and hsv
returns a unit hue in [0,1), a saturation in [0,1] and a value in [0,1]; every
ColorKey built by getImageColor has Hue in [0,360), Saturation in [0,1] and
Value in [0,1]. -/
theorem hsv_ranges (c : RGBA) (hr : c.r ≤ 65535) (hg : c.g ≤ 65535) (hb : c.b ≤ 65535) :
    (max (max (normalize c).1 (normalize c).2.1) (normalize c).2.2
        ≠ min (min (normalize c).1 (normalize c).2.1) (normalize c).2.2 →
      0 ≤ hueSector (normalize c).1 (normalize c).2.1 (normalize c).2.2
            (max (max (normalize c).1 (normalize c).2.1) (normalize c).2.2)
            (max (max (normalize c).1 (normalize c).2.1) (normalize c).2.2
              - min (min (normalize c).1 (normalize c).2.1) (normalize c).2.2) ∧
        hueSector (normalize c).1 (normalize c).2.1 (normalize c).2.2
            (max (max (normalize c).1 (normalize c).2.1) (normalize c).2.2)
            (max (max (normalize c).1 (normalize c).2.1) (normalize c).2.2
              - min (min (normalize c).1 (normalize c).2.1) (normalize c).2.2) < 6) ∧
      (0 ≤ (hsv c).1 ∧ (hsv c).1 < 1 ∧ 0 ≤ (hsv c).2.1 ∧ (hsv c).2.1 ≤ 1 ∧
        0 ≤ (hsv c).2.2 ∧ (hsv c).2.2 ≤ 1) ∧
      (∀ (i : Option Image) (key : entryColor), getImageColor i = .ok key →
        0 ≤ key.Hue ∧ key.Hue < 360 ∧ 0 ≤ key.Sat ∧ key.Sat ≤ 1 ∧
          0 ≤ key.Value ∧ key.Value ≤ 1) := by
  refine ⟨fun h => hueSector_range _ _ _ h, hsv_range c hr hg hb, ?_⟩
  intro i key h
  have hk := getImageColor_range i key h
  exact ⟨hk.1, by linarith [hk.2.1], hk.2.2⟩

/-- Witness for C9: the channels of pure red, and the key of a one-pixel red image. -/
theorem hsv_ranges_witness :
    ((65535 : Nat) ≤ 65535 ∧ (0 : Nat) ≤ 65535) ∧
      (0 ≤ (hsv { r := 65535, g := 0, b := 0, a := 65535 }).1 ∧
        (hsv { r := 65535, g := 0, b := 0, a := 65535 }).1 < 1 ∧
        0 ≤ (hsv { r := 65535, g := 0, b := 0, a := 65535 }).2.1 ∧
        (hsv { r := 65535, g := 0, b := 0, a := 65535 }).2.1 ≤ 1 ∧
        0 ≤ (hsv { r := 65535, g := 0, b := 0, a := 65535 }).2.2 ∧
        (hsv { r := 65535, g := 0, b := 0, a := 65535 }).2.2 ≤ 1) ∧
      (getImageColor (some (uniformImage 1 1 (opaque8 255 0 0)))
          = .ok { Hue := 0, Sat := 1, Value := 65535 / 65536 } ∧
        (0 : ℚ) ≤ 0 ∧ (0 : ℚ) < 360 ∧ (0 : ℚ) ≤ 1 ∧ (1 : ℚ) ≤ 1 ∧
          (0 : ℚ) ≤ 65535 / 65536 ∧ (65535 / 65536 : ℚ) ≤ 1) :=
  have hkey : getImageColor (some (uniformImage 1 1 (opaque8 255 0 0)))
      = .ok { Hue := 0, Sat := 1, Value := 65535 / 65536 } := by
    rw [getImageColor_uniform_small 1 1 255 0 0 (by norm_num) (by norm_num) (by norm_num)
      (by norm_num) (by norm_num), hsv_red]
    norm_num
  ⟨⟨by decide, by decide⟩,
    (hsv_ranges { r := 65535, g := 0, b := 0, a := 65535 } (by decide) (by decide)
      (by decide)).2.1,
    hkey,
    (hsv_ranges { r := 65535, g := 0, b := 0, a := 65535 } (by decide) (by decide)
      (by decide)).2.2 _ _ hkey⟩

/-! ## Perceptual Sorter -/

theorem less_false_iff (a b : collageEntry) : less b a = false ↔ keyLe a.Color b.Color := by
  unfold less keyLe
  rcases lt_trichotomy a.Color.Hue b.Color.Hue with h | h | h
  · simp [h, ne_of_gt h, le_of_lt h]
  · rcases lt_trichotomy a.Color.Sat b.Color.Sat with h2 | h2 | h2
    · simp [h, h2, ne_of_gt h2, le_of_lt h2]
    · simp [h, h2]
    · simp [h, h2, ne_of_gt h2, ne_of_lt h2, not_lt_of_gt h2, le_of_lt h2]
  · simp [h, ne_of_lt h, not_lt_of_gt h]
    intro h3; exact absurd h3.symm (ne_of_lt h)

theorem keyLe_refl (a : entryColor) : keyLe a a := by
  unfold keyLe
  exact Or.inr ⟨rfl, Or.inr ⟨rfl, le_refl _⟩⟩

theorem keyLe_trans (a b c : entryColor) (h1 : keyLe a b) (h2 : keyLe b c) : keyLe a c := by
  unfold keyLe at *
  rcases h1 with h1 | ⟨e1, h1 | ⟨e1b, h1⟩⟩ <;> rcases h2 with h2 | ⟨e2, h2 | ⟨e2b, h2⟩⟩
  · exact Or.inl (lt_trans h1 h2)
  · exact Or.inl (by rw [← e2]; exact h1)
  · exact Or.inl (by rw [← e2]; exact h1)
  · exact Or.inl (by rw [e1]; exact h2)
  · exact Or.inr ⟨e1.trans e2, Or.inl (lt_trans h1 h2)⟩
  · exact Or.inr ⟨e1.trans e2, Or.inl (by rw [← e2b]; exact h1)⟩
  · exact Or.inl (by rw [e1]; exact h2)
  · exact Or.inr ⟨e1.trans e2, Or.inl (by rw [e1b]; exact h2)⟩
  · exact Or.inr ⟨e1.trans e2, Or.inr ⟨e1b.trans e2b, le_trans h1 h2⟩⟩

theorem keyLe_total (a b : entryColor) : keyLe a b ∨ keyLe b a := by
  unfold keyLe
  rcases lt_trichotomy a.Hue b.Hue with h | h | h
  · exact Or.inl (Or.inl h)
  · rcases lt_trichotomy a.Sat b.Sat with h2 | h2 | h2
    · exact Or.inl (Or.inr ⟨h, Or.inl h2⟩)
    · rcases le_total a.Value b.Value with h3 | h3
      · exact Or.inl (Or.inr ⟨h, Or.inr ⟨h2, h3⟩⟩)
      · exact Or.inr (Or.inr ⟨h.symm, Or.inr ⟨h2.symm, h3⟩⟩)
    · exact Or.inr (Or.inr ⟨h.symm, Or.inl h2⟩)
  · exact Or.inr (Or.inl h)

theorem keyLe_antisymm_less (a b : collageEntry) (h : less a b = true) :
    ¬ keyLe b.Color a.Color := by
  intro hk
  rw [← less_false_iff] at hk
  rw [hk] at h
  exact Bool.false_ne_true h

theorem less_strictWeak : StrictWeak less := by
  refine ⟨?_, ?_, ?_⟩
  · intro a
    rw [less_false_iff]
    exact keyLe_refl _
  · intro a b c h1 h2
    by_contra h3
    have h3b : less a c = false := by simpa using h3
    rw [less_false_iff] at h3b
    -- c ≤ a, a < b, b < c
    rcases keyLe_total b.Color a.Color with h4 | h4
    · exact keyLe_antisymm_less a b h1 h4
    · exact keyLe_antisymm_less b c h2 (keyLe_trans _ _ _ h3b h4)
  · intro a b c h1 h2
    rw [less_false_iff] at *
    exact keyLe_trans _ _ _ h1 h2

theorem getImageColor_ok (img : Image) (h : img.pixelCount ≠ 0) :
    ∃ key, getImageColor (some img) = .ok key := by
  simp only [getImageColor, averageImageColor, if_neg h]
  exact ⟨_, rfl⟩

theorem colourAll_ok (entries : List collageEntry) (hv : ValidEntries entries) :
    ∃ out, colourAll entries = .ok out ∧ out.map (fun e => e.Image) = entries.map (fun e => e.Image) ∧
      ∀ e ∈ out, getImageColor e.Image = .ok e.Color := by
  induction entries with
  | nil => exact ⟨[], rfl, rfl, by simp⟩
  | cons e rest ih =>
    obtain ⟨img, himg, hd⟩ := hv e (List.mem_cons_self _ _)
    obtain ⟨out, h1, h2, h3⟩ := ih (fun e2 he2 => hv e2 (List.mem_cons_of_mem _ he2))
    obtain ⟨key, hkey⟩ := getImageColor_ok img hd
    refine ⟨{ Image := e.Image, Color := key } :: out, ?_, ?_, ?_⟩
    · simp only [colourAll, himg, hkey, h1]
    · simp [h2]
    · intro e2 he2
      rcases List.mem_cons.mp he2 with h | h
      · subst h
        simp only [himg, hkey]
      · exact h3 e2 h

theorem colourAll_nil (entries : List collageEntry) (h : ∃ e ∈ entries, e.Image = none) :
    ∃ p, colourAll entries = .error p := by
  induction entries with
  | nil => obtain ⟨e, he, _⟩ := h; simp at he
  | cons e rest ih =>
    obtain ⟨e2, he2, hnone⟩ := h
    simp only [colourAll]
    cases hg : getImageColor e.Image with
    | error p => exact ⟨p, rfl⟩
    | ok c =>
      simp only []
      rcases List.mem_cons.mp he2 with h1 | h1
      · subst h1
        rw [hnone] at hg
        simp [getImageColor] at hg
      · obtain ⟨p, hp⟩ := ih ⟨e2, h1, hnone⟩
        rw [hp]
        exact ⟨p, rfl⟩

theorem sortImagesByHsv_ok (S : SliceSorter) (entries : List collageEntry)
    (hv : ValidEntries entries) :
    ∃ coloured, colourAll entries = .ok coloured ∧
      sortImagesByHsv S entries = .ok (S.sort less coloured) := by
  obtain ⟨out, h1, _, _⟩ := colourAll_ok entries hv
  exact ⟨out, h1, by simp only [sortImagesByHsv, h1]⟩

theorem length_colourAll (entries out : List collageEntry) (h : colourAll entries = .ok out) :
    out.length = entries.length := by
  induction entries generalizing out with
  | nil => simp only [colourAll] at h; injection h with h; subst h; rfl
  | cons e rest ih =>
    simp only [colourAll] at h
    cases hg : getImageColor e.Image with
    | error p => rw [hg] at h; simp at h
    | ok c =>
      rw [hg] at h
      simp only [] at h
      cases hr : colourAll rest with
      | error p => rw [hr] at h; simp at h
      | ok done =>
        rw [hr] at h
        simp only [] at h
        injection h with h
        subst h
        simp [ih done hr]

theorem length_sortImagesByHsv (S : SliceSorter) (entries out : List collageEntry)
    (h : sortImagesByHsv S entries = .ok out) : out.length = entries.length := by
  unfold sortImagesByHsv at h
  cases hc : colourAll entries with
  | error p => rw [hc] at h; simp at h
  | ok coloured =>
    rw [hc] at h
    simp only [] at h
    injection h with h
    subst h
    rw [(S.perm less coloured).length_eq, length_colourAll entries coloured hc]

theorem validEntries_newEntries (images : List (Option Image)) (hv : ValidImages images) :
    ValidEntries (newEntries images) := by
  intro e he
  unfold newEntries at he
  obtain ⟨i, hi, rfl⟩ := List.mem_map.mp he
  exact hv i hi

theorem pixelCount_pixel (R G B : Nat) : (pixel R G B).pixelCount ≠ 0 := by
  unfold pixel
  rw [pixelCount_uniform]
  norm_num

/-- C3. For every sequence of entries with non-null images of non-zero pixel count,
sortImagesByHsv returns, and in its result the entries are in ascending lexicographic
order of (Hue, Saturation, Value): for all positions i < j the key of entry i is less
than or equal to the key of entry j. -/
theorem sortImagesByHsv_sorted (S : SliceSorter) (entries : List collageEntry)
    (hv : ValidEntries entries) :
    ∃ out, sortImagesByHsv S entries = .ok out ∧
      ∀ (i j : Nat) (hij : i < j) (hj : j < out.length),
        keyLe (out[i]).Color (out[j]).Color := by
  obtain ⟨coloured, _, h2⟩ := sortImagesByHsv_ok S entries hv
  refine ⟨_, h2, ?_⟩
  have hs := S.sorted less coloured less_strictWeak
  rw [List.pairwise_iff_getElem] at hs
  intro i j hij hj
  exact (less_false_iff _ _).mp (hs i j (by omega) hj hij)

/-- Witness for C3: a blue pixel before a red pixel, sorted by insertion sort. -/
theorem sortImagesByHsv_sorted_witness :
    ValidEntries (newEntries [some (pixel 0 0 255), some (pixel 255 0 0)]) ∧
      ∃ out, sortImagesByHsv insertionSorter
          (newEntries [some (pixel 0 0 255), some (pixel 255 0 0)]) = .ok out ∧
        ∀ (i j : Nat) (hij : i < j) (hj : j < out.length),
          keyLe (out[i]).Color (out[j]).Color :=
  have hv : ValidEntries (newEntries [some (pixel 0 0 255), some (pixel 255 0 0)]) := by
    apply validEntries_newEntries
    intro i hi
    simp only [List.mem_cons, List.mem_singleton, List.not_mem_nil, or_false] at hi
    rcases hi with rfl | rfl
    · exact ⟨_, rfl, pixelCount_pixel _ _ _⟩
    · exact ⟨_, rfl, pixelCount_pixel _ _ _⟩
  ⟨hv, sortImagesByHsv_sorted insertionSorter _ hv⟩

/-! ## Collage Assembler -/

theorem rearrangeImages_long {α : Type} [Inhabited α] (entries : List α) (x y : Int)
    (hx : 1 ≤ x) (hy : 1 ≤ y) (hlen : x * y ≤ (entries.length : Int)) :
    ∃ arranged, rearrangeImages entries x y = (arranged, none) ∧
      arranged.length = entries.length := by
  obtain ⟨X, rfl⟩ := Int.eq_ofNat_of_zero_le (by omega : 0 ≤ x)
  obtain ⟨Y, rfl⟩ := Int.eq_ofNat_of_zero_le (by omega : 0 ≤ y)
  have hX : 1 ≤ X := by omega
  have hY : 1 ≤ Y := by omega
  have hl : Y * X ≤ entries.length := by
    have : ((Y * X : Nat) : Int) ≤ ((entries.length : Nat) : Int) := by
      push_cast; rw [mul_comm]; exact hlen
    exact_mod_cast this
  refine ⟨_, rearrangeImages_eq X Y hX hY entries hl, ?_⟩
  simp only [List.length_append, List.length_map, length_rowMajor, List.length_drop]
  omega

theorem rearrangeImages_short {α : Type} [Inhabited α] (entries : List α) (x y : Int)
    (hx : 1 ≤ x) (hy : 1 ≤ y) (hlen : (entries.length : Int) < x * y) :
    rearrangeImages entries x y = (entries, some .indexOutOfRange) := by
  obtain ⟨X, rfl⟩ := Int.eq_ofNat_of_zero_le (by omega : 0 ≤ x)
  obtain ⟨Y, rfl⟩ := Int.eq_ofNat_of_zero_le (by omega : 0 ≤ y)
  have hX : 1 ≤ X := by omega
  have hY : 1 ≤ Y := by omega
  have hl : entries.length < Y * X := by
    have : ((entries.length : Nat) : Int) < ((Y * X : Nat) : Int) := by
      push_cast; rw [mul_comm]; exact hlen
    exact_mod_cast this
  exact rearrangeImages_err X Y hX hY entries hl

theorem length_newEntries (images : List (Option Image)) :
    (newEntries images).length = images.length := by
  simp [newEntries]

theorem New_of_long {β ε : Type} (S : SliceSorter)
    (merge : List (Option Grid) → Int → Int → Option β × Option ε)
    (images : List (Option Image)) (x y : Int) (hx : 1 ≤ x) (hy : 1 ≤ y)
    (hv : ValidImages images) (hlen : x * y ≤ (images.length : Int)) :
    ∃ sorted arranged, sortImagesByHsv S (newEntries images) = .ok sorted ∧
      rearrangeImages sorted x y = (arranged, none) ∧ arranged.length = images.length ∧
      New S merge images x y = .ok (returnMerged (merge (gridsOf arranged) x y)) := by
  obtain ⟨coloured, _, hs⟩ := sortImagesByHsv_ok S _ (validEntries_newEntries images hv)
  have hl := length_sortImagesByHsv S _ _ hs
  rw [length_newEntries] at hl
  obtain ⟨arranged, ha, hal⟩ := rearrangeImages_long (S.sort less coloured) x y hx hy
    (by rw [hl]; exact hlen)
  refine ⟨_, arranged, hs, ha, by rw [hal, hl], ?_⟩
  simp only [New, hs, ha]

theorem New_of_short {β ε : Type} (S : SliceSorter)
    (merge : List (Option Grid) → Int → Int → Option β × Option ε)
    (images : List (Option Image)) (x y : Int) (hx : 1 ≤ x) (hy : 1 ≤ y)
    (hv : ValidImages images) (hlen : (images.length : Int) < x * y) :
    ∃ sorted, sortImagesByHsv S (newEntries images) = .ok sorted ∧
      New S merge images x y = .error .indexOutOfRange := by
  obtain ⟨coloured, _, hs⟩ := sortImagesByHsv_ok S _ (validEntries_newEntries images hv)
  have hl := length_sortImagesByHsv S _ _ hs
  rw [length_newEntries] at hl
  have ha := rearrangeImages_short (S.sort less coloured) x y hx hy (by rw [hl]; exact hlen)
  refine ⟨_, hs, ?_⟩
  simp only [New, hs, ha]

theorem New_of_nil {β ε : Type} (S : SliceSorter)
    (merge : List (Option Grid) → Int → Int → Option β × Option ε)
    (images : List (Option Image)) (x y : Int) (h : none ∈ images) :
    (∃ p, sortImagesByHsv S (newEntries images) = .error p) ∧
      ∃ p, New S merge images x y = .error p := by
  have hn : ∃ e ∈ newEntries images, e.Image = none :=
    ⟨{ Image := none, Color := default }, List.mem_map.mpr ⟨none, h, rfl⟩, rfl⟩
  obtain ⟨p, hp⟩ := colourAll_nil _ hn
  have hs : sortImagesByHsv S (newEntries images) = .error p := by
    simp only [sortImagesByHsv, hp]
  exact ⟨⟨p, hs⟩, ⟨p, by simp only [New, hs]⟩⟩

theorem validImages_pair (a b : Image) (ha : a.pixelCount ≠ 0) (hb : b.pixelCount ≠ 0) :
    ValidImages [some a, some b] := by
  intro i hi
  simp only [List.mem_cons, List.mem_singleton, List.not_mem_nil, or_false] at hi
  rcases hi with rfl | rfl
  · exact ⟨_, rfl, ha⟩
  · exact ⟨_, rfl, hb⟩

/-- C5 (counterexample). New has no grid-size check. With two one-pixel images and a
1 by 1 grid (1*1 differs from 2) and a merge library that succeeds, New returns the
bitmap and no error; with a single nil handle and a 3 by 3 grid New ends in the
nil-dereference panic of the colour computation, which therefore ran first. -/
theorem New_no_size_check :
    New insertionSorter (fun _ _ _ => ((some 7 : Option Nat), (none : Option String)))
        [some (pixel 255 0 0), some (pixel 0 0 255)] 1 1 = .ok (some 7, none) ∧
      New insertionSorter (fun _ _ _ => ((some 7 : Option Nat), (none : Option String)))
        [none] 3 3 = .error .nilDereference := by
  constructor
  · obtain ⟨sorted, arranged, _, _, _, h⟩ := New_of_long insertionSorter
      (fun _ _ _ => ((some 7 : Option Nat), (none : Option String)))
      [some (pixel 255 0 0), some (pixel 0 0 255)] 1 1 (by decide) (by decide)
      (validImages_pair _ _ (pixelCount_pixel _ _ _) (pixelCount_pixel _ _ _)) (by decide)
    rw [h]
    rfl
  · simp [New, sortImagesByHsv, newEntries, colourAll, getImageColor]

/-- C5 (amended). New performs no grid-size check and produces no error of its own.
For x >= 1, y >= 1 and non-null images of non-zero pixel count, the colour computation
and the sort run first and succeed; then, when len(images) < x*y, rearrangeImages ends
New with an index-out-of-range panic, and when len(images) > x*y, rearrangeImages ends
normally and New returns what the merge library returns on the len(images) cells. -/
theorem New_size_mismatch {β ε : Type} (S : SliceSorter)
    (merge : List (Option Grid) → Int → Int → Option β × Option ε)
    (images : List (Option Image)) (x y : Int) (hx : 1 ≤ x) (hy : 1 ≤ y)
    (hv : ValidImages images) :
    ∃ sorted, sortImagesByHsv S (newEntries images) = .ok sorted ∧
      ((images.length : Int) < x * y → New S merge images x y = .error .indexOutOfRange) ∧
      (x * y < (images.length : Int) →
        ∃ arranged, rearrangeImages sorted x y = (arranged, none) ∧
          arranged.length = images.length ∧
          New S merge images x y = .ok (returnMerged (merge (gridsOf arranged) x y))) := by
  obtain ⟨coloured, _, hs⟩ := sortImagesByHsv_ok S _ (validEntries_newEntries images hv)
  refine ⟨_, hs, ?_, ?_⟩
  · intro hlen
    obtain ⟨_, _, h⟩ := New_of_short S merge images x y hx hy hv hlen
    exact h
  · intro hlen
    obtain ⟨sorted, arranged, h1, h2, h3, h4⟩ :=
      New_of_long S merge images x y hx hy hv (le_of_lt hlen)
    rw [hs] at h1
    injection h1 with h1
    subst h1
    exact ⟨arranged, h2, h3, h4⟩

/-- Witness for C5: two one-pixel images on a 1 by 1 grid. -/
theorem New_size_mismatch_witness :
    ((1 : Int) ≤ 1 ∧ ValidImages [some (pixel 255 0 0), some (pixel 0 0 255)]) ∧
      ∃ sorted, sortImagesByHsv insertionSorter
          (newEntries [some (pixel 255 0 0), some (pixel 0 0 255)]) = .ok sorted ∧
        ((([some (pixel 255 0 0), some (pixel 0 0 255)] : List (Option Image)).length : Int)
            < 1 * 1 →
          New insertionSorter (fun _ _ _ => ((some 7 : Option Nat), (none : Option String)))
            [some (pixel 255 0 0), some (pixel 0 0 255)] 1 1 = .error .indexOutOfRange) ∧
        ((1 : Int) * 1
            < (([some (pixel 255 0 0), some (pixel 0 0 255)] : List (Option Image)).length : Int) →
          ∃ arranged, rearrangeImages sorted 1 1 = (arranged, none) ∧
            arranged.length
              = ([some (pixel 255 0 0), some (pixel 0 0 255)] : List (Option Image)).length ∧
            New insertionSorter (fun _ _ _ => ((some 7 : Option Nat), (none : Option String)))
                [some (pixel 255 0 0), some (pixel 0 0 255)] 1 1
              = .ok (returnMerged ((fun _ _ _ => ((some 7 : Option Nat), (none : Option String)))
                  (gridsOf arranged) (1 : Int) (1 : Int)))) :=
  ⟨⟨by decide, validImages_pair _ _ (pixelCount_pixel _ _ _) (pixelCount_pixel _ _ _)⟩,
    New_size_mismatch insertionSorter
      (fun _ _ _ => ((some 7 : Option Nat), (none : Option String)))
      [some (pixel 255 0 0), some (pixel 0 0 255)] 1 1 (by decide) (by decide)
      (validImages_pair _ _ (pixelCount_pixel _ _ _) (pixelCount_pixel _ _ _))⟩

/-- C6 (what the code does). For every input sequence that contains a nil image handle,
the colour computation dereferences the nil handle: sortImagesByHsv, and hence New,
end in a panic, so no ColorKey is assigned and no order is produced. -/
theorem nil_handle_panics {β ε : Type} (S : SliceSorter)
    (merge : List (Option Grid) → Int → Int → Option β × Option ε)
    (images : List (Option Image)) (x y : Int) (h : none ∈ images) :
    (∃ p, sortImagesByHsv S (newEntries images) = .error p) ∧
      ∃ p, New S merge images x y = .error p :=
  New_of_nil S merge images x y h

/-- Witness for C6: a red pixel and a nil handle on a 2 by 1 grid. -/
theorem nil_handle_panics_witness :
    (none ∈ [some (pixel 255 0 0), none]) ∧
      (∃ p, sortImagesByHsv insertionSorter (newEntries [some (pixel 255 0 0), none])
        = .error p) ∧
      ∃ p, New insertionSorter (fun _ _ _ => ((some 7 : Option Nat), (none : Option String)))
        [some (pixel 255 0 0), none] 2 1 = .error p :=
  ⟨by simp,
    nil_handle_panics insertionSorter
      (fun _ _ _ => ((some 7 : Option Nat), (none : Option String)))
      [some (pixel 255 0 0), none] 2 1 (by simp)⟩

theorem getElem?_gridsOf (arranged : List collageEntry) (i : Nat) (hi : i < arranged.length) :
    (gridsOf arranged)[i]? = some ((arranged[i]).Image.map Grid.mk) := by
  unfold gridsOf
  rw [List.getElem?_map, List.getElem?_eq_getElem hi]
  rfl

theorem returnMerged_error {β ε : Type} (r : Option β × Option ε) (e : ε)
    (h : r.2 = some e) : returnMerged r = (none, some e) := by
  obtain ⟨b, err⟩ := r
  simp only at h
  subst h
  rfl

theorem returnMerged_ok {β ε : Type} (r : Option β × Option ε) (h : r.2 = none) :
    returnMerged r = (r.1, none) := by
  obtain ⟨b, err⟩ := r
  simp only at h
  subst h
  rfl

theorem returnMerged_either {β ε : Type} (r : Option β × Option ε)
    (h : r.1 = none ∨ r.2 = none) : returnMerged r = r := by
  obtain ⟨b, err⟩ := r
  cases err with
  | none => rfl
  | some e =>
    simp only at h
    rcases h with h | h
    · subst h; rfl
    · exact absurd h (by simp)

/-- C10. For every valid input (width and height at least 1, non-null images of non-zero
pixel count, x*y = len(images)) and every merge library, New sorts, rearranges and
calls the library on (cells, x, y), where cell i holds the image of entry i of the
sorted-then-rearranged sequence. When the library reports an error, New returns no
bitmap and that same error; otherwise New returns the library's bitmap and no error;
so New returns exactly the library's pair whenever that pair is a bitmap or an error. -/
theorem New_returns_merge {β ε : Type} (S : SliceSorter)
    (merge : List (Option Grid) → Int → Int → Option β × Option ε)
    (images : List (Option Image)) (x y : Int) (hx : 1 ≤ x) (hy : 1 ≤ y)
    (hv : ValidImages images) (hlen : (images.length : Int) = x * y) :
    ∃ sorted arranged, sortImagesByHsv S (newEntries images) = .ok sorted ∧
      rearrangeImages sorted x y = (arranged, none) ∧
      (gridsOf arranged).length = images.length ∧
      (∀ (i : Nat) (hi : i < arranged.length),
        (gridsOf arranged)[i]? = some ((arranged[i]).Image.map Grid.mk)) ∧
      (∀ e, (merge (gridsOf arranged) x y).2 = some e →
        New S merge images x y = .ok (none, some e)) ∧
      ((merge (gridsOf arranged) x y).2 = none →
        New S merge images x y = .ok ((merge (gridsOf arranged) x y).1, none)) ∧
      ((merge (gridsOf arranged) x y).1 = none ∨ (merge (gridsOf arranged) x y).2 = none →
        New S merge images x y = .ok (merge (gridsOf arranged) x y)) := by
  obtain ⟨sorted, arranged, h1, h2, h3, h4⟩ :=
    New_of_long S merge images x y hx hy hv (le_of_eq hlen.symm)
  refine ⟨sorted, arranged, h1, h2, by simp [gridsOf, h3], getElem?_gridsOf arranged, ?_, ?_, ?_⟩
  · intro e he
    rw [h4, returnMerged_error _ e he]
  · intro he
    rw [h4, returnMerged_ok _ he]
  · intro he
    rw [h4, returnMerged_either _ he]

/-- Witness for C10: a blue and a red pixel on a 2 by 1 grid, with a merge library
that fails. -/
theorem New_returns_merge_witness :
    ((1 : Int) ≤ 2 ∧ (1 : Int) ≤ 1 ∧
        ValidImages [some (pixel 0 0 255), some (pixel 255 0 0)] ∧
        (([some (pixel 0 0 255), some (pixel 255 0 0)] : List (Option Image)).length : Int)
          = 2 * 1) ∧
      New insertionSorter
          (fun _ _ _ => ((none : Option Nat), (some "merge failed" : Option String)))
          [some (pixel 0 0 255), some (pixel 255 0 0)] 2 1
        = .ok (none, some "merge failed") :=
  ⟨⟨by decide, by decide,
      validImages_pair _ _ (pixelCount_pixel _ _ _) (pixelCount_pixel _ _ _), by decide⟩,
    match New_returns_merge insertionSorter
        (fun _ _ _ => ((none : Option Nat), (some "merge failed" : Option String)))
        [some (pixel 0 0 255), some (pixel 255 0 0)] 2 1 (by decide) (by decide)
        (validImages_pair _ _ (pixelCount_pixel _ _ _) (pixelCount_pixel _ _ _))
        (by decide) with
    | ⟨_, _, _, _, _, _, herr, _, _⟩ => herr "merge failed" rfl⟩

/-! ## Which entry lands in which cell -/

theorem seg_iterate {x y : Int} (cs : List (Nat × Nat)) :
    ∀ (c c2 : Cursor), Seg x y c cs c2 →
      (advance x y)^[cs.length] c = c2 ∧
      ∀ (k : Nat) (hk : k < cs.length),
        ((advance x y)^[k] c).row = ((cs[k]).1 : Int) ∧
          ((advance x y)^[k] c).col = ((cs[k]).2 : Int) := by
  induction cs with
  | nil =>
    intro c c2 h
    simp only [Seg] at h
    subst h
    exact ⟨rfl, fun k hk => absurd hk (by simp)⟩
  | cons a cs ih =>
    intro c c2 h
    obtain ⟨r, k0⟩ := a
    simp only [Seg] at h
    obtain ⟨hr, hk0, _, _, hrest⟩ := h
    obtain ⟨h1, h2⟩ := ih _ _ hrest
    refine ⟨by simpa [Function.iterate_succ_apply] using h1, ?_⟩
    intro k hk
    cases k with
    | zero => exact ⟨hr, hk0⟩
    | succ k =>
      simp only [List.length_cons, Nat.add_lt_add_iff_right] at hk
      simpa [Function.iterate_succ_apply] using h2 k hk

theorem rowMajor_succ (X Y : Nat) :
    rowMajor (X : Int) ((Y + 1 : Nat) : Int)
      = rowMajor (X : Int) (Y : Int) ++ (List.range X).map (fun j => (Y, j)) := by
  unfold rowMajor
  simp only [Int.toNat_ofNat, List.range_succ, List.flatMap_append, List.flatMap_singleton]

theorem getElem?_rowMajor (X Y : Nat) :
    ∀ (r k : Nat), r < Y → k < X → (rowMajor (X : Int) (Y : Int))[r * X + k]? = some (r, k) := by
  induction Y with
  | zero => intro r k hr _; omega
  | succ Y ih =>
    intro r k hr hk
    rw [rowMajor_succ]
    by_cases h : r < Y
    · have hlt : r * X + k < (rowMajor (X : Int) (Y : Int)).length := by
        rw [length_rowMajor]
        calc r * X + k < r * X + X := by omega
          _ = (r + 1) * X := by ring
          _ ≤ Y * X := Nat.mul_le_mul_right _ h
      rw [List.getElem?_append_left hlt]
      exact ih r k h hk
    · have hrY : r = Y := by omega
      subst hrY
      rw [List.getElem?_append_right (by rw [length_rowMajor]; omega), length_rowMajor]
      simp [hk]

/-- For a grid of `Y` by `X` cells and at least `Y*X` entries: the `k`-th cell of the
zig-zag order is the one the loop holds at pass `k`, and the slot of that cell in the
result holds entry `k`. -/
theorem placed_at {α : Type} [Inhabited α] (X Y : Nat) (hX : 1 ≤ X) (hY : 1 ≤ Y)
    (entries : List α) (hlen : Y * X ≤ entries.length) (k : Nat) (hk : k < Y * X) :
    ∃ (r c : Nat), (zigzag X Y)[k]? = some (r, c) ∧ r < Y ∧ c < X ∧
      (cursorAt (X : Int) (Y : Int) k).row = (r : Int) ∧
      (cursorAt (X : Int) (Y : Int) k).col = (c : Int) ∧
      (rearrangeImages entries (X : Int) (Y : Int)).1[r * X + c]? = entries[k]? := by
  have hkz : k < (zigzag X Y).length := by rw [length_zigzag X Y hX hY]; exact hk
  have hmem := zigzag_inBounds X Y hX hY _ (List.getElem_mem hkz)
  have hit := (seg_iterate _ _ _ (seg_zigzag X Y hX hY)).2 k hkz
  refine ⟨((zigzag X Y)[k]).1, ((zigzag X Y)[k]).2, by rw [List.getElem?_eq_getElem hkz],
    hmem.1, hmem.2, hit.1, hit.2, ?_⟩
  have hd : Dims (List.replicate Y (List.replicate X (default : α))) Y X := dims_replicate Y X _
  have hm := map_cellD_writeAll (zigzag X Y) entries _ hd (zigzag_inBounds X Y hX hY)
    (nodup_zigzag X Y hX hY) (by rw [length_zigzag X Y hX hY]; exact hlen)
  have hcell : some (cellD (writeAll (List.replicate Y (List.replicate X default)) (zigzag X Y) entries)
      ((zigzag X Y)[k]).1 ((zigzag X Y)[k]).2) = entries[k]? := by
    have h1 := congrArg (fun l => l[k]?) hm
    simp only [List.getElem?_map, List.getElem?_eq_getElem hkz, Option.map_some',
      List.getElem?_take] at h1
    rw [if_pos hkz] at h1
    exact h1
  rw [rearrangeImages_eq X Y hX hY entries hlen]
  simp only []
  have hidx : ((zigzag X Y)[k]).1 * X + ((zigzag X Y)[k]).2
      < ((rowMajor (X : Int) (Y : Int)).map
          (fun p => cellD (writeAll (List.replicate Y (List.replicate X default))
            (zigzag X Y) entries) p.1 p.2)).length := by
    rw [List.length_map, length_rowMajor]
    calc ((zigzag X Y)[k]).1 * X + ((zigzag X Y)[k]).2 < ((zigzag X Y)[k]).1 * X + X := by omega
      _ = (((zigzag X Y)[k]).1 + 1) * X := by ring
      _ ≤ Y * X := Nat.mul_le_mul_right _ hmem.1
  rw [List.getElem?_append_left hidx, List.getElem?_map,
    getElem?_rowMajor X Y _ _ hmem.1 hmem.2]
  simp only [Option.map_some']
  exact hcell

theorem cursorAt_succ (x y : Int) (k : Nat) :
    cursorAt x y (k + 1) = advance x y (cursorAt x y k) := by
  unfold cursorAt
  rw [Function.iterate_succ_apply']

theorem advance_adjacent (x y : Int) (c : Cursor) (h0 : 0 ≤ c.row) (h1 : c.row < y)
    (h2 : 0 ≤ c.col) (h3 : c.col < x) :
    |(advance x y c).row - c.row| ≤ 1 ∧ |(advance x y c).col - c.col| ≤ 1 ∧
      ((advance x y c).row ≠ c.row ∨ (advance x y c).col ≠ c.col) ∧
      (((advance x y c).row + (advance x y c).col) - (c.row + c.col) = 0 ∨
        ((advance x y c).row + (advance x y c).col) - (c.row + c.col) = 1) := by
  rcases c with ⟨r, k, d⟩
  simp only at h0 h1 h2 h3
  simp only [abs_le]
  cases d <;> simp only [advance, Bool.false_eq_true, if_false, if_true, Bool.not_false,
    Bool.not_true] <;> split_ifs <;> simp only [] <;> omega

/-- The grid facts in `Int` form: for `x, y >= 1` and at least `x*y` entries, pass `k < x*y`
of the loop holds a cursor inside the grid, and the slot `row*x + col` of the result
holds entry `k`. -/
theorem placed_at_cursor {α : Type} [Inhabited α] (entries : List α) (x y : Int)
    (hx : 1 ≤ x) (hy : 1 ≤ y) (hlen : x * y ≤ (entries.length : Int)) (k : Nat)
    (hk : (k : Int) < x * y) :
    (0 ≤ (cursorAt x y k).row ∧ (cursorAt x y k).row < y ∧
        0 ≤ (cursorAt x y k).col ∧ (cursorAt x y k).col < x) ∧
      (rearrangeImages entries x y).1[((cursorAt x y k).row * x + (cursorAt x y k).col).toNat]?
        = entries[k]? := by
  obtain ⟨X, rfl⟩ := Int.eq_ofNat_of_zero_le (by omega : 0 ≤ x)
  obtain ⟨Y, rfl⟩ := Int.eq_ofNat_of_zero_le (by omega : 0 ≤ y)
  have hX : 1 ≤ X := by omega
  have hY : 1 ≤ Y := by omega
  have hl : Y * X ≤ entries.length := by
    have : ((Y * X : Nat) : Int) ≤ ((entries.length : Nat) : Int) := by
      push_cast; rw [mul_comm]; exact hlen
    exact_mod_cast this
  have hk2 : k < Y * X := by
    have : ((k : Nat) : Int) < ((Y * X : Nat) : Int) := by
      push_cast; rw [mul_comm]; exact hk
    exact_mod_cast this
  obtain ⟨r, c, _, hr, hc, hrow, hcol, hout⟩ := placed_at X Y hX hY entries hl k hk2
  rw [hrow, hcol]
  refine ⟨⟨by omega, by omega, by omega, by omega⟩, ?_⟩
  have : ((r : Int) * (X : Int) + (c : Int)).toNat = r * X + c := by
    have : (r : Int) * (X : Int) + (c : Int) = ((r * X + c : Nat) : Int) := by push_cast; ring
    rw [this, Int.toNat_ofNat]
  rw [this]
  exact hout

/-- After exactly `x*y` passes the cursor is outside the loop condition. -/
theorem cursorAt_end (x y : Int) (hx : 1 ≤ x) (hy : 1 ≤ y) :
    ¬ ((cursorAt x y (x * y).toNat).row < y ∧ (cursorAt x y (x * y).toNat).col < x) := by
  obtain ⟨X, rfl⟩ := Int.eq_ofNat_of_zero_le (by omega : 0 ≤ x)
  obtain ⟨Y, rfl⟩ := Int.eq_ofNat_of_zero_le (by omega : 0 ≤ y)
  have hX : 1 ≤ X := by omega
  have hY : 1 ≤ Y := by omega
  have h := (seg_iterate _ _ _ (seg_zigzag X Y hX hY)).1
  rw [length_zigzag X Y hX hY] at h
  have e : ((X : Int) * (Y : Int)).toNat = Y * X := by
    have : (X : Int) * (Y : Int) = ((Y * X : Nat) : Int) := by push_cast; ring
    rw [this, Int.toNat_ofNat]
  unfold cursorAt
  rw [e, h]
  exact diagStart_last X Y hX hY

/-- C12. For every grid with width x >= 2 and height y >= 1 and every entry sequence of
length x*y, rearrangeImages places the first input entry in cell (0,0) and the second
in cell (0,1): the loop holds cursor (0,0) at its first pass and (0,1) at its second,
and output[0] = input[0], output[1] = input[1]. -/
theorem rearrangeImages_first_two {α : Type} [Inhabited α] (entries : List α) (x y : Int)
    (hx : 2 ≤ x) (hy : 1 ≤ y) (hlen : (entries.length : Int) = x * y) :
    cursorAt x y 0 = { row := 0, col := 0, dir := true } ∧
      cursorAt x y 1 = { row := 0, col := 1, dir := false } ∧
      2 ≤ entries.length ∧
      (rearrangeImages entries x y).1[0]? = entries[0]? ∧
      (rearrangeImages entries x y).1[1]? = entries[1]? := by
  have hxy : 2 ≤ x * y := by nlinarith
  have h0 : cursorAt x y 0 = { row := 0, col := 0, dir := true } := rfl
  have h1 : cursorAt x y 1 = { row := 0, col := 1, dir := false } := by
    rw [cursorAt_succ, h0]
    have hne : ¬ ((0 : Int) = x - 1) := by omega
    have hlt : (0 : Int) < x - 1 := by omega
    simp [advance, hne, hlt]
  have p0 := (placed_at_cursor entries x y (by omega) hy (le_of_eq hlen.symm) 0 (by omega)).2
  have p1 := (placed_at_cursor entries x y (by omega) hy (le_of_eq hlen.symm) 1 (by omega)).2
  rw [h0] at p0
  rw [h1] at p1
  have e0 : ((0 : Int) * x + 0).toNat = 0 := by simp
  have e1 : ((0 : Int) * x + 1).toNat = 1 := by simp
  simp only [e0] at p0
  simp only [e1] at p1
  exact ⟨h0, h1, by omega, p0, p1⟩

/-- Witness for C12: six labelled entries on a grid of width 3 and height 2. -/
theorem rearrangeImages_first_two_witness :
    ((2 : Int) ≤ 3 ∧ (1 : Int) ≤ 2 ∧ (([7, 8, 9, 10, 11, 12] : List Nat).length : Int) = 3 * 2) ∧
      (rearrangeImages [7, 8, 9, 10, 11, 12] 3 2).1[0]? = some 7 ∧
      (rearrangeImages [7, 8, 9, 10, 11, 12] 3 2).1[1]? = some 8 :=
  ⟨⟨by decide, by decide, by decide⟩,
    (rearrangeImages_first_two [7, 8, 9, 10, 11, 12] 3 2 (by decide) (by decide)
      (by decide)).2.2.2⟩

/-- C14. For every x >= 1, y >= 1, entry sequence of length x*y and k with k+1 < x*y:
the cells that the loop holds at passes k and k+1 lie inside the grid and receive the
input entries k and k+1 (slot row*x+col of the result); they are neighbouring cells,
|r2-r| <= 1 and |c2-c| <= 1 with (r2,c2) different from (r,c), and the second lies on
the same anti-diagonal as the first or on the next one. -/
theorem consecutive_cells_adjacent {α : Type} [Inhabited α] (entries : List α) (x y : Int)
    (hx : 1 ≤ x) (hy : 1 ≤ y) (hlen : (entries.length : Int) = x * y) (k : Nat)
    (hk : (k : Int) + 1 < x * y) :
    ((0 ≤ (cursorAt x y k).row ∧ (cursorAt x y k).row < y ∧
        0 ≤ (cursorAt x y k).col ∧ (cursorAt x y k).col < x) ∧
      (rearrangeImages entries x y).1[((cursorAt x y k).row * x + (cursorAt x y k).col).toNat]?
        = entries[k]?) ∧
    ((0 ≤ (cursorAt x y (k + 1)).row ∧ (cursorAt x y (k + 1)).row < y ∧
        0 ≤ (cursorAt x y (k + 1)).col ∧ (cursorAt x y (k + 1)).col < x) ∧
      (rearrangeImages entries x y).1[((cursorAt x y (k + 1)).row * x
          + (cursorAt x y (k + 1)).col).toNat]?
        = entries[k + 1]?) ∧
    |(cursorAt x y (k + 1)).row - (cursorAt x y k).row| ≤ 1 ∧
    |(cursorAt x y (k + 1)).col - (cursorAt x y k).col| ≤ 1 ∧
    ((cursorAt x y (k + 1)).row ≠ (cursorAt x y k).row ∨
      (cursorAt x y (k + 1)).col ≠ (cursorAt x y k).col) ∧
    (((cursorAt x y (k + 1)).row + (cursorAt x y (k + 1)).col)
        - ((cursorAt x y k).row + (cursorAt x y k).col) = 0 ∨
      ((cursorAt x y (k + 1)).row + (cursorAt x y (k + 1)).col)
        - ((cursorAt x y k).row + (cursorAt x y k).col) = 1) := by
  have pk := placed_at_cursor entries x y hx hy (le_of_eq hlen.symm) k (by omega)
  have pk1 := placed_at_cursor entries x y hx hy (le_of_eq hlen.symm) (k + 1)
    (by push_cast; omega)
  have hadj := advance_adjacent x y (cursorAt x y k) pk.1.1 pk.1.2.1 pk.1.2.2.1 pk.1.2.2.2
  rw [← cursorAt_succ] at hadj
  exact ⟨pk, pk1, hadj⟩

/-- Witness for C14: entries 3 and 4 of nine on a 3 by 3 grid. -/
theorem consecutive_cells_adjacent_witness :
    ((1 : Int) ≤ 3 ∧ (([0, 1, 2, 3, 4, 5, 6, 7, 8] : List Nat).length : Int) = 3 * 3 ∧
        ((3 : Nat) : Int) + 1 < 3 * 3) ∧
      |(cursorAt 3 3 (3 + 1)).row - (cursorAt 3 3 3).row| ≤ 1 ∧
      |(cursorAt 3 3 (3 + 1)).col - (cursorAt 3 3 3).col| ≤ 1 :=
  ⟨⟨by decide, by decide, by decide⟩,
    (consecutive_cells_adjacent [0, 1, 2, 3, 4, 5, 6, 7, 8] 3 3 (by decide) (by decide)
      (by decide) 3 (by decide)).2.2.1,
    (consecutive_cells_adjacent [0, 1, 2, 3, 4, 5, 6, 7, 8] 3 3 (by decide) (by decide)
      (by decide) 3 (by decide)).2.2.2.1⟩

theorem rearrangeImages_take_drop {α : Type} [Inhabited α] (entries : List α) (x y : Int)
    (hx : 1 ≤ x) (hy : 1 ≤ y) (hlen : x * y ≤ (entries.length : Int)) :
    (rearrangeImages entries x y).2 = none ∧
      (rearrangeImages entries x y).1.length = entries.length ∧
      ((rearrangeImages entries x y).1.take (x * y).toNat).Perm (entries.take (x * y).toNat) ∧
      (rearrangeImages entries x y).1.drop (x * y).toNat = entries.drop (x * y).toNat := by
  obtain ⟨X, rfl⟩ := Int.eq_ofNat_of_zero_le (by omega : 0 ≤ x)
  obtain ⟨Y, rfl⟩ := Int.eq_ofNat_of_zero_le (by omega : 0 ≤ y)
  have hX : 1 ≤ X := by omega
  have hY : 1 ≤ Y := by omega
  have hl : Y * X ≤ entries.length := by
    have : ((Y * X : Nat) : Int) ≤ ((entries.length : Nat) : Int) := by
      push_cast; rw [mul_comm]; exact hlen
    exact_mod_cast this
  have e : ((X : Int) * (Y : Int)).toNat = Y * X := by
    have : (X : Int) * (Y : Int) = ((Y * X : Nat) : Int) := by push_cast; ring
    rw [this, Int.toNat_ofNat]
  rw [e, rearrangeImages_eq X Y hX hY entries hl]
  have hp := rearrangeImages_perm_take X Y hX hY entries hl
  have hmlen : ((rowMajor (X : Int) (Y : Int)).map
      (fun p => cellD (writeAll (List.replicate Y (List.replicate X default))
        (zigzag X Y) entries) p.1 p.2)).length = Y * X := by
    rw [List.length_map, length_rowMajor]
  refine ⟨rfl, ?_, ?_, ?_⟩
  · simp only [List.length_append, hmlen, List.length_drop]
    omega
  · simp only []
    rw [List.take_append_of_le_length (by rw [hmlen]), List.take_of_length_le (by rw [hmlen])]
    exact hp
  · simp only []
    rw [List.drop_append_of_le_length (by rw [hmlen]), List.drop_of_length_le (by rw [hmlen])]
    simp

/-- C17. For every x >= 1 and y >= 1: the traversal loop holds a cursor inside the grid
at each of its first x*y passes and leaves the loop condition after exactly x*y passes;
rearrangeImages ends in the index-out-of-range panic if and only if len(entries) < x*y,
ends normally if and only if len(entries) >= x*y, and when it panics the slice entries
is as it was. -/
theorem rearrangeImages_fails_iff {α : Type} [Inhabited α] (entries : List α) (x y : Int)
    (hx : 1 ≤ x) (hy : 1 ≤ y) :
    (∀ k : Nat, (k : Int) < x * y →
      0 ≤ (cursorAt x y k).row ∧ (cursorAt x y k).row < y ∧
        0 ≤ (cursorAt x y k).col ∧ (cursorAt x y k).col < x) ∧
    ¬ ((cursorAt x y (x * y).toNat).row < y ∧ (cursorAt x y (x * y).toNat).col < x) ∧
    ((rearrangeImages entries x y).2 = some .indexOutOfRange ↔ (entries.length : Int) < x * y) ∧
    ((rearrangeImages entries x y).2 = none ↔ x * y ≤ (entries.length : Int)) ∧
    ((entries.length : Int) < x * y → (rearrangeImages entries x y).1 = entries) := by
  have hshort : (entries.length : Int) < x * y →
      rearrangeImages entries x y = (entries, some .indexOutOfRange) :=
    rearrangeImages_short entries x y hx hy
  have hlong : x * y ≤ (entries.length : Int) → (rearrangeImages entries x y).2 = none :=
    fun h => (rearrangeImages_take_drop entries x y hx hy h).1
  refine ⟨?_, cursorAt_end x y hx hy, ?_, ?_, ?_⟩
  · intro k hk
    have hpos : 0 ≤ x * y := by nlinarith
    have hrep : x * y ≤ ((List.replicate (x * y).toNat (default : α)).length : Int) := by
      rw [List.length_replicate, Int.toNat_of_nonneg hpos]
    exact (placed_at_cursor (List.replicate (x * y).toNat (default : α)) x y hx hy hrep k hk).1
  · constructor
    · intro h
      by_contra hn
      rw [hlong (by omega)] at h
      exact Option.noConfusion h
    · intro h
      rw [hshort h]
  · constructor
    · intro h
      by_contra hn
      rw [hshort (by omega)] at h
      exact Option.noConfusion h
    · exact hlong
  · intro h
    rw [hshort h]

/-- Witness for C17: five entries on a 3 by 2 grid, one short. -/
theorem rearrangeImages_fails_iff_witness :
    ((1 : Int) ≤ 3 ∧ (1 : Int) ≤ 2) ∧
      (rearrangeImages [1, 2, 3, 4, 5] 3 2).2 = some .indexOutOfRange ∧
      (rearrangeImages [1, 2, 3, 4, 5] 3 2).1 = [1, 2, 3, 4, 5] :=
  ⟨⟨by decide, by decide⟩,
    (rearrangeImages_fails_iff [1, 2, 3, 4, 5] 3 2 (by decide) (by decide)).2.2.1.mpr
      (by decide),
    (rearrangeImages_fails_iff [1, 2, 3, 4, 5] 3 2 (by decide) (by decide)).2.2.2.2
      (by decide)⟩

/-- C18. For every x >= 1, y >= 1 and entry sequence with len(entries) > x*y,
rearrangeImages reports no error, keeps the length, leaves every entry at an index
>= x*y unchanged and permutes only the first x*y entries. -/
theorem rearrangeImages_surplus {α : Type} [Inhabited α] (entries : List α) (x y : Int)
    (hx : 1 ≤ x) (hy : 1 ≤ y) (hlen : x * y < (entries.length : Int)) :
    (rearrangeImages entries x y).2 = none ∧
      (rearrangeImages entries x y).1.length = entries.length ∧
      ((rearrangeImages entries x y).1.take (x * y).toNat).Perm (entries.take (x * y).toNat) ∧
      (rearrangeImages entries x y).1.drop (x * y).toNat = entries.drop (x * y).toNat ∧
      (∀ i : Nat, x * y ≤ (i : Int) → (rearrangeImages entries x y).1[i]? = entries[i]?) := by
  obtain ⟨h1, h2, h3, h4⟩ := rearrangeImages_take_drop entries x y hx hy (le_of_lt hlen)
  refine ⟨h1, h2, h3, h4, ?_⟩
  intro i hi
  have hn : (x * y).toNat ≤ i := by omega
  have e : i = (x * y).toNat + (i - (x * y).toNat) := by omega
  rw [e, ← List.getElem?_drop, ← List.getElem?_drop, h4]

/-- Witness for C18: eight entries on a 3 by 2 grid; the last two stay in place. -/
theorem rearrangeImages_surplus_witness :
    ((1 : Int) ≤ 3 ∧ (1 : Int) ≤ 2 ∧
        (3 : Int) * 2 < (([0, 1, 2, 3, 4, 5, 6, 7] : List Nat).length : Int)) ∧
      (rearrangeImages [0, 1, 2, 3, 4, 5, 6, 7] 3 2).2 = none ∧
      (rearrangeImages [0, 1, 2, 3, 4, 5, 6, 7] 3 2).1[6]? = some 6 ∧
      (rearrangeImages [0, 1, 2, 3, 4, 5, 6, 7] 3 2).1[7]? = some 7 :=
  ⟨⟨by decide, by decide, by decide⟩,
    (rearrangeImages_surplus [0, 1, 2, 3, 4, 5, 6, 7] 3 2 (by decide) (by decide)
      (by decide)).1,
    (rearrangeImages_surplus [0, 1, 2, 3, 4, 5, 6, 7] 3 2 (by decide) (by decide)
      (by decide)).2.2.2.2 6 (by decide),
    (rearrangeImages_surplus [0, 1, 2, 3, 4, 5, 6, 7] 3 2 (by decide) (by decide)
      (by decide)).2.2.2.2 7 (by decide)⟩

/-! ## The loop refines the declarative zig-zag order -/

theorem zzLe_total (p q : Nat × Nat) : zzLe p q ∨ zzLe q p := by
  unfold zzLe
  split_ifs <;> omega

theorem zzLe_trans (p q r : Nat × Nat) (h1 : zzLe p q) (h2 : zzLe q r) : zzLe p r := by
  unfold zzLe at *
  split_ifs at * <;> omega

theorem zzLe_antisymm (p q : Nat × Nat) (h1 : zzLe p q) (h2 : zzLe q p) : p = q := by
  unfold zzLe at *
  have : p.1 = q.1 ∧ p.2 = q.2 := by split_ifs at * <;> omega
  exact Prod.ext this.1 this.2

theorem sorted_diagCells (X Y s : Nat) (hY : 1 ≤ Y) :
    (diagCells X Y s).Pairwise zzLe := by
  unfold diagCells
  rw [List.pairwise_map]
  unfold diagRows
  split_ifs with hs
  · rw [List.pairwise_reverse]
    refine List.Pairwise.imp_of_mem ?_ (List.pairwise_lt_range' (diagLo X s)
      (diagHi Y s + 1 - diagLo X s))
    intro a b ha hb hab
    rw [List.mem_range'_1] at ha hb
    unfold diagHi at ha hb
    unfold zzLe
    simp only []
    have : ¬ ((b + (s - b)) % 2 = 1) := by omega
    rw [if_neg this]
    omega
  · refine List.Pairwise.imp_of_mem ?_ (List.pairwise_lt_range' (diagLo X s)
      (diagHi Y s + 1 - diagLo X s))
    intro a b ha hb hab
    rw [List.mem_range'_1] at ha hb
    unfold diagHi at ha hb
    unfold zzLe
    simp only []
    have : (a + (s - a)) % 2 = 1 := by omega
    rw [if_pos this]
    omega

theorem sorted_zigzag (X Y : Nat) (hX : 1 ≤ X) (hY : 1 ≤ Y) : (zigzag X Y).Pairwise zzLe := by
  unfold zigzag
  rw [List.pairwise_flatMap]
  refine ⟨fun s _ => sorted_diagCells X Y s hY, ?_⟩
  refine List.Pairwise.imp ?_ (List.pairwise_lt_range (X + Y - 1))
  intro a b hab p hp q hq
  obtain ⟨r1, k1⟩ := p
  obtain ⟨r2, k2⟩ := q
  rw [mem_diagCells X Y _ hX hY] at hp hq
  unfold zzLe
  left
  simp only []
  omega

theorem zigzagRef_eq (X Y : Nat) (hX : 1 ≤ X) (hY : 1 ≤ Y) :
    zigzagRef (X : Int) (Y : Int) = zigzag X Y := by
  unfold zigzagRef
  haveI : IsTotal (Nat × Nat) zzLe := ⟨zzLe_total⟩
  haveI : IsTrans (Nat × Nat) zzLe := ⟨zzLe_trans⟩
  haveI : IsAntisymm (Nat × Nat) zzLe := ⟨zzLe_antisymm⟩
  exact List.eq_of_perm_of_sorted
    ((List.perm_insertionSort zzLe _).trans (zigzag_perm_rowMajor X Y hX hY).symm)
    (List.sorted_insertionSort zzLe _) (sorted_zigzag X Y hX hY)

theorem getElem?_cellRank (p : Nat × Nat) (cells : List (Nat × Nat)) (h : p ∈ cells) :
    cells[cellRank p cells]? = some p := by
  induction cells with
  | nil => simp at h
  | cons q rest ih =>
    unfold cellRank
    by_cases hq : q = p
    · simp [hq]
    · rw [if_neg hq]
      rcases List.mem_cons.mp h with h1 | h1
      · exact absurd h1.symm hq
      · simpa using ih h1

theorem rearrangeImages_eq_spec {α : Type} [Inhabited α] (X Y : Nat) (hX : 1 ≤ X) (hY : 1 ≤ Y)
    (entries : List α) (hlen : entries.length = Y * X) :
    rearrangeImages entries (X : Int) (Y : Int) = (rearrangeSpec entries (X : Int) (Y : Int), none) := by
  rw [rearrangeImages_eq X Y hX hY entries (by omega)]
  have hdrop : entries.drop (Y * X) = [] := by
    rw [List.drop_eq_nil_iff]; omega
  rw [hdrop, List.append_nil]
  unfold rearrangeSpec
  rw [zigzagRef_eq X Y hX hY]
  congr 1
  apply List.map_congr_left
  rintro ⟨r, c⟩ hp
  have hmem : (r, c) ∈ zigzag X Y :=
    (mem_zigzag X Y hX hY r c).mpr ((mem_rowMajor X Y r c).mp hp)
  have hget := getElem?_cellRank (r, c) (zigzag X Y) hmem
  have hk : cellRank (r, c) (zigzag X Y) < (zigzag X Y).length :=
    (List.getElem?_eq_some_iff.mp hget).1
  have hd : Dims (List.replicate Y (List.replicate X (default : α))) Y X := dims_replicate Y X _
  have hm := map_cellD_writeAll (zigzag X Y) entries _ hd (zigzag_inBounds X Y hX hY)
    (nodup_zigzag X Y hX hY) (by rw [length_zigzag X Y hX hY]; omega)
  have h1 := congrArg (fun l => l[cellRank (r, c) (zigzag X Y)]?) hm
  simp only [List.getElem?_map, hget, Option.map_some', List.getElem?_take] at h1
  rw [if_pos hk] at h1
  simp only []
  rw [List.getD_eq_getElem?_getD, ← h1]
  rfl

/-- C13. For every x >= 1, y >= 1 and entry sequence of length x*y, rearrangeImages ends
without a panic and equals the declarative zig-zag reference: with the cells ordered by
anti-diagonal index r+c ascending, and within one anti-diagonal by r ascending when
r+c is odd and by r descending when r+c is even, the k-th cell (r,c) of that order
receives the k-th input entry, output[r*x+c] = input[k]. -/
theorem rearrangeImages_refines {α : Type} [Inhabited α] (entries : List α) (x y : Int)
    (hx : 1 ≤ x) (hy : 1 ≤ y) (hlen : (entries.length : Int) = x * y) :
    rearrangeImages entries x y = (rearrangeSpec entries x y, none) ∧
      (zigzagRef x y).length = entries.length ∧
      ∀ (k r c : Nat), (zigzagRef x y)[k]? = some (r, c) →
        (rearrangeImages entries x y).1[r * x.toNat + c]? = entries[k]? := by
  obtain ⟨X, rfl⟩ := Int.eq_ofNat_of_zero_le (by omega : 0 ≤ x)
  obtain ⟨Y, rfl⟩ := Int.eq_ofNat_of_zero_le (by omega : 0 ≤ y)
  have hX : 1 ≤ X := by omega
  have hY : 1 ≤ Y := by omega
  have hl : entries.length = Y * X := by
    have : ((entries.length : Nat) : Int) = ((Y * X : Nat) : Int) := by
      rw [hlen]; push_cast; ring
    exact_mod_cast this
  refine ⟨rearrangeImages_eq_spec X Y hX hY entries hl, ?_, ?_⟩
  · rw [zigzagRef_eq X Y hX hY, length_zigzag X Y hX hY, hl]
  · intro k r c hkc
    rw [zigzagRef_eq X Y hX hY] at hkc
    have hk : k < Y * X := by
      rw [← length_zigzag X Y hX hY]
      exact (List.getElem?_eq_some_iff.mp hkc).1
    obtain ⟨r2, c2, h1, _, _, _, _, h2⟩ := placed_at X Y hX hY entries (by omega) k hk
    rw [hkc] at h1
    injection h1 with h1
    injection h1 with h3 h4
    subst h3
    subst h4
    simpa using h2

/-- Witness for C13: six labelled entries on a grid of width 3 and height 2. -/
theorem rearrangeImages_refines_witness :
    ((1 : Int) ≤ 3 ∧ (1 : Int) ≤ 2 ∧
        (([10, 11, 12, 13, 14, 15] : List Nat).length : Int) = 3 * 2) ∧
      rearrangeImages [10, 11, 12, 13, 14, 15] 3 2
        = (rearrangeSpec [10, 11, 12, 13, 14, 15] 3 2, none) ∧
      rearrangeSpec [10, 11, 12, 13, 14, 15] 3 2 = [10, 11, 14, 12, 13, 15] :=
  ⟨⟨by decide, by decide, by decide⟩,
    (rearrangeImages_refines [10, 11, 12, 13, 14, 15] 3 2 (by decide) (by decide)
      (by decide)).1,
    by decide⟩

/-! ## Perceptual Sorter: frame, idempotence and hue scaling -/

theorem colourAll_fixed (xs : List collageEntry)
    (h : ∀ e ∈ xs, getImageColor e.Image = .ok e.Color) : colourAll xs = .ok xs := by
  induction xs with
  | nil => rfl
  | cons e rest ih =>
    have h1 := h e (List.mem_cons_self _ _)
    have h2 := ih (fun e2 he2 => h e2 (List.mem_cons_of_mem _ he2))
    simp only [colourAll, h1, h2]

/-- C15. For every sequence of entries with non-null images of non-zero pixel count,
sortImagesByHsv returns the same entries reordered: the image handles of the result
are a permutation of the input's, and every output entry's Color is getImageColor of
that entry's own Image. -/
theorem sortImagesByHsv_frame (S : SliceSorter) (entries : List collageEntry)
    (hv : ValidEntries entries) :
    ∃ out, sortImagesByHsv S entries = .ok out ∧
      (out.map (fun e => e.Image)).Perm (entries.map (fun e => e.Image)) ∧
      out.length = entries.length ∧
      ∀ e ∈ out, getImageColor e.Image = .ok e.Color := by
  obtain ⟨coloured, h1, h2, h3⟩ := colourAll_ok entries hv
  have hp := S.perm less coloured
  refine ⟨S.sort less coloured, by simp only [sortImagesByHsv, h1], ?_, ?_, ?_⟩
  · rw [← h2]
    exact hp.map _
  · rw [hp.length_eq, length_colourAll entries coloured h1]
  · intro e he
    exact h3 e (hp.subset he)

/-- Witness for C15: a blue pixel before a red pixel, sorted by insertion sort. -/
theorem sortImagesByHsv_frame_witness :
    ValidEntries (newEntries [some (pixel 0 0 255), some (pixel 255 0 0)]) ∧
      ∃ out, sortImagesByHsv insertionSorter
          (newEntries [some (pixel 0 0 255), some (pixel 255 0 0)]) = .ok out ∧
        (out.map (fun e => e.Image)).Perm
          ((newEntries [some (pixel 0 0 255), some (pixel 255 0 0)]).map (fun e => e.Image)) ∧
        out.length = (newEntries [some (pixel 0 0 255), some (pixel 255 0 0)]).length ∧
        ∀ e ∈ out, getImageColor e.Image = .ok e.Color :=
  have hv : ValidEntries (newEntries [some (pixel 0 0 255), some (pixel 255 0 0)]) :=
    validEntries_newEntries _
      (validImages_pair _ _ (pixelCount_pixel _ _ _) (pixelCount_pixel _ _ _))
  ⟨hv, sortImagesByHsv_frame insertionSorter _ hv⟩

theorem less_hue360 (a b : collageEntry) : less (hue360 a) (hue360 b) = less a b := by
  unfold less hue360
  simp only []
  have h6 : (0 : ℚ) < 6 := by norm_num
  have e1 : (a.Color.Hue * 6 = b.Color.Hue * 6) ↔ (a.Color.Hue = b.Color.Hue) :=
    ⟨fun h => mul_right_cancel₀ (ne_of_gt h6) h, fun h => by rw [h]⟩
  have e2 : (a.Color.Hue * 6 < b.Color.Hue * 6) ↔ (a.Color.Hue < b.Color.Hue) :=
    mul_lt_mul_right h6
  simp only [e1, e2]

/-- C16. Scaling the unit hue by 60 rather than 360 does not change the sort order
(arithmetic read exactly): on any two keys the comparator of sortImagesByHsv gives the
same answer for (60*h, s, v) as for (360*h, s, v), so sorting by the comparator on
the 360-scaled keys returns the same sequence as sorting by the comparator itself. -/
theorem hue_scale_irrelevant :
    (∀ (i1 i2 : Option Image) (h1 s1 v1 h2 s2 v2 : ℚ),
      less { Image := i1, Color := { Hue := 60 * h1, Sat := s1, Value := v1 } }
          { Image := i2, Color := { Hue := 60 * h2, Sat := s2, Value := v2 } }
        = less { Image := i1, Color := { Hue := 360 * h1, Sat := s1, Value := v1 } }
            { Image := i2, Color := { Hue := 360 * h2, Sat := s2, Value := v2 } }) ∧
      (∀ (S : SliceSorter) (xs : List collageEntry),
        S.sort (fun a b => less (hue360 a) (hue360 b)) xs = S.sort less xs) := by
  constructor
  · intro i1 i2 h1 s1 v1 h2 s2 v2
    have h := less_hue360 { Image := i1, Color := { Hue := 60 * h1, Sat := s1, Value := v1 } }
      { Image := i2, Color := { Hue := 60 * h2, Sat := s2, Value := v2 } }
    rw [← h]
    unfold hue360
    simp only []
    have e1 : 60 * h1 * 6 = 360 * h1 := by ring
    have e2 : 60 * h2 * 6 = 360 * h2 := by ring
    rw [e1, e2]
  · intro S xs
    have : (fun a b => less (hue360 a) (hue360 b)) = less := by
      funext a b
      exact less_hue360 a b
    rw [this]

theorem keyLe_antisymm (a b : entryColor) (h1 : keyLe a b) (h2 : keyLe b a) : a = b := by
  unfold keyLe at h1 h2
  obtain ⟨ah, as, av⟩ := a
  obtain ⟨bh, bs, bv⟩ := b
  simp only at h1 h2
  have hh : ah = bh := by
    rcases h1 with h1 | ⟨e, _⟩
    · rcases h2 with h2 | ⟨e2, _⟩
      · exact absurd (lt_trans h1 h2) (lt_irrefl _)
      · rw [e2] at h1; exact absurd h1 (lt_irrefl _)
    · exact e
  subst hh
  have h1b : as < bs ∨ (as = bs ∧ av ≤ bv) := by
    rcases h1 with h1 | ⟨_, h1⟩
    · exact absurd h1 (lt_irrefl _)
    · exact h1
  have h2b : bs < as ∨ (bs = as ∧ bv ≤ av) := by
    rcases h2 with h2 | ⟨_, h2⟩
    · exact absurd h2 (lt_irrefl _)
    · exact h2
  have hs : as = bs := by
    rcases h1b with h | ⟨e, _⟩
    · rcases h2b with h2 | ⟨e2, _⟩
      · exact absurd (lt_trans h h2) (lt_irrefl _)
      · rw [e2] at h; exact absurd h (lt_irrefl _)
    · exact e
  subst hs
  have hv : av = bv := by
    rcases h1b with h | ⟨_, h⟩
    · exact absurd h (lt_irrefl _)
    · rcases h2b with h2 | ⟨_, h2⟩
      · exact absurd h2 (lt_irrefl _)
      · exact le_antisymm h h2
  subst hv
  rfl

theorem sorted_keys (S : SliceSorter) (xs : List collageEntry) :
    ((S.sort less xs).map (fun e => e.Color)).Pairwise keyLe := by
  rw [List.pairwise_map]
  refine List.Pairwise.imp ?_ (S.sorted less xs less_strictWeak)
  intro a b h
  exact (less_false_iff a b).mp h

/-- Sorting a second time with any sorter of the contract: a permutation with the same
key at every position, and the same sequence when entries with equal keys are equal. -/
theorem sort_twice (S : SliceSorter) (entries : List collageEntry) (hv : ValidEntries entries) :
    ∃ out1 out2, sortImagesByHsv S entries = .ok out1 ∧ sortImagesByHsv S out1 = .ok out2 ∧
      out2.Perm out1 ∧
      out2.map (fun e => e.Color) = out1.map (fun e => e.Color) ∧
      ((∀ a ∈ out1, ∀ b ∈ out1, a.Color = b.Color → a = b) → out2 = out1) := by
  obtain ⟨coloured, h1, _, h3⟩ := colourAll_ok entries hv
  have hp := S.perm less coloured
  have hfix : colourAll (S.sort less coloured) = .ok (S.sort less coloured) :=
    colourAll_fixed _ (fun e he => h3 e (hp.subset he))
  have hp2 := S.perm less (S.sort less coloured)
  haveI : IsAntisymm entryColor keyLe := ⟨keyLe_antisymm⟩
  have hkeys : (S.sort less (S.sort less coloured)).map (fun e => e.Color)
      = (S.sort less coloured).map (fun e => e.Color) :=
    List.eq_of_perm_of_sorted (hp2.map _) (sorted_keys S _) (sorted_keys S _)
  refine ⟨S.sort less coloured, S.sort less (S.sort less coloured),
    by simp only [sortImagesByHsv, h1], by simp only [sortImagesByHsv, hfix], hp2, hkeys, ?_⟩
  intro hinj
  apply List.ext_getElem hp2.length_eq
  intro i hi1 hi2
  apply hinj
  · exact hp2.subset (List.getElem_mem hi1)
  · exact List.getElem_mem hi2
  · have := congrArg (fun l => l[i]?) hkeys
    simp only [List.getElem?_map, List.getElem?_eq_getElem hi1, List.getElem?_eq_getElem hi2,
      Option.map_some'] at this
    exact Option.some.inj this

theorem getImageColor_red (w : Nat) (hw : 1 ≤ w) (hw2 : w ≤ 65537) :
    getImageColor (some (uniformImage w 1 (opaque8 255 0 0)))
      = .ok { Hue := 0, Sat := 1, Value := 65535 / 65536 } := by
  rw [getImageColor_uniform_small w 1 255 0 0 (by omega) (by omega) (by norm_num)
    (by norm_num) (by norm_num), hsv_red]
  norm_num

theorem keepsSorted_insertionSorter : KeepsSorted insertionSorter := by
  intro α lt xs h
  exact List.Sorted.insertionSort_eq h

theorem sort_again (S : SliceSorter) (hS : KeepsSorted S) (entries : List collageEntry)
    (hv : ValidEntries entries) :
    ∃ out, sortImagesByHsv S entries = .ok out ∧ sortImagesByHsv S out = .ok out := by
  obtain ⟨coloured, h1, _, h3⟩ := colourAll_ok entries hv
  have hp := S.perm less coloured
  have hfix : colourAll (S.sort less coloured) = .ok (S.sort less coloured) :=
    colourAll_fixed _ (fun e he => h3 e (hp.subset he))
  have hkeep : S.sort less (S.sort less coloured) = S.sort less coloured :=
    hS less _ (S.sorted less coloured less_strictWeak)
  refine ⟨S.sort less coloured, by simp only [sortImagesByHsv, h1], ?_⟩
  simp only [sortImagesByHsv, hfix, hkeep]

/-- C11. sortImagesByHsv is idempotent: for every sequence of entries with non-null
images of non-zero pixel count, sortImagesByHsv returns a sequence, and applying
sortImagesByHsv to that already-sorted sequence returns it unchanged. This holds with
the insertion sort that sort.Slice runs on short slices, and with every sorter of the
contract of sort.Slice that leaves a slice already in order as it is. -/
theorem sortImagesByHsv_idempotent (entries : List collageEntry) (hv : ValidEntries entries) :
    (∃ out, sortImagesByHsv insertionSorter entries = .ok out ∧
        sortImagesByHsv insertionSorter out = .ok out) ∧
      (∀ S : SliceSorter, KeepsSorted S →
        ∃ out, sortImagesByHsv S entries = .ok out ∧ sortImagesByHsv S out = .ok out) :=
  ⟨sort_again insertionSorter keepsSorted_insertionSorter entries hv,
    fun S hS => sort_again S hS entries hv⟩

/-- Witness for C11: two red images of equal key, one of one pixel and one of two
pixels; the first sort keeps them in their order and the second sort changes nothing. -/
theorem sortImagesByHsv_idempotent_witness :
    ValidEntries
        [{ Image := some (uniformImage 1 1 (opaque8 255 0 0)), Color := default },
         { Image := some (uniformImage 2 1 (opaque8 255 0 0)), Color := default }] ∧
      (∃ out, sortImagesByHsv insertionSorter
            [{ Image := some (uniformImage 1 1 (opaque8 255 0 0)), Color := default },
             { Image := some (uniformImage 2 1 (opaque8 255 0 0)), Color := default }]
          = .ok out ∧
        sortImagesByHsv insertionSorter out = .ok out) ∧
      sortImagesByHsv insertionSorter
          [{ Image := some (uniformImage 1 1 (opaque8 255 0 0)), Color := default },
           { Image := some (uniformImage 2 1 (opaque8 255 0 0)), Color := default }]
        = .ok
          [{ Image := some (uniformImage 1 1 (opaque8 255 0 0)),
             Color := { Hue := 0, Sat := 1, Value := 65535 / 65536 } },
           { Image := some (uniformImage 2 1 (opaque8 255 0 0)),
             Color := { Hue := 0, Sat := 1, Value := 65535 / 65536 } }] :=
  have hv : ValidEntries
      [{ Image := some (uniformImage 1 1 (opaque8 255 0 0)), Color := default },
       { Image := some (uniformImage 2 1 (opaque8 255 0 0)), Color := default }] := by
    intro e he
    simp only [List.mem_cons, List.mem_singleton, List.not_mem_nil, or_false] at he
    rcases he with rfl | rfl
    · exact ⟨_, rfl, by rw [pixelCount_uniform]; norm_num⟩
    · exact ⟨_, rfl, by rw [pixelCount_uniform]; norm_num⟩
  ⟨hv, (sortImagesByHsv_idempotent _ hv).1, by
    simp only [sortImagesByHsv, colourAll, getImageColor_red 1 (by norm_num) (by norm_num),
      getImageColor_red 2 (by norm_num) (by norm_num)]
    simp [insertionSorter, List.insertionSort, List.orderedInsert, less]⟩

/-! ## Colour Reducer: exact sums for images of at most 65537 pixels -/

theorem sumPixels_eq_foldl (i : Image) :
    sumPixels i = (pixelList i).foldl addPixel (0, 0, 0) := by
  unfold sumPixels pixelList
  generalize loopRange i.minY i.maxY = ys
  generalize ((0 : Nat), (0 : Nat), (0 : Nat)) = acc
  induction ys generalizing acc with
  | nil => rfl
  | cons y ys ih =>
    simp only [List.foldl_cons, List.flatMap_cons, List.foldl_append, List.foldl_map]
    exact ih _

theorem exactSums_bound (ps : List RGBA)
    (h : ∀ p ∈ ps, p.r ≤ 65535 ∧ p.g ≤ 65535 ∧ p.b ≤ 65535) :
    (exactSums ps).1 ≤ ps.length * 65535 ∧ (exactSums ps).2.1 ≤ ps.length * 65535 ∧
      (exactSums ps).2.2 ≤ ps.length * 65535 := by
  induction ps with
  | nil => simp [exactSums]
  | cons p ps ih =>
    have hp := h p (List.mem_cons_self _ _)
    have ih2 := ih (fun q hq => h q (List.mem_cons_of_mem _ hq))
    unfold exactSums at ih2 ⊢
    simp only [List.map_cons, List.sum_cons, List.length_cons] at ih2 ⊢
    omega

theorem foldl_addPixel_exact (ps : List RGBA) :
    ∀ (acc : Nat × Nat × Nat),
      acc.1 + (exactSums ps).1 < 4294967296 → acc.2.1 + (exactSums ps).2.1 < 4294967296 →
      acc.2.2 + (exactSums ps).2.2 < 4294967296 →
      ps.foldl addPixel acc
        = (acc.1 + (exactSums ps).1, acc.2.1 + (exactSums ps).2.1,
            acc.2.2 + (exactSums ps).2.2) := by
  induction ps with
  | nil => intro acc _ _ _; simp [exactSums]
  | cons p ps ih =>
    intro acc h1 h2 h3
    unfold exactSums at h1 h2 h3 ih ⊢
    simp only [List.map_cons, List.sum_cons] at h1 h2 h3 ⊢
    simp only [List.foldl_cons]
    have e : addPixel acc p = (acc.1 + p.r, acc.2.1 + p.g, acc.2.2 + p.b) := by
      unfold addPixel
      rw [Nat.mod_eq_of_lt (by omega), Nat.mod_eq_of_lt (by omega), Nat.mod_eq_of_lt (by omega)]
    rw [e, ih _ (by simp only []; omega) (by simp only []; omega) (by simp only []; omega)]
    simp only [Prod.mk.injEq]
    omega

theorem length_pixelList (i : Image) :
    (pixelList i).length = (i.maxY - i.minY).toNat * (i.maxX - i.minX).toNat := by
  unfold pixelList
  have h : (List.length ∘ fun y : Int => List.map (fun x => i.colorAt x y)
      (loopRange i.minX i.maxX)) = fun _ => (i.maxX - i.minX).toNat := by
    funext y
    simp [length_loopRange]
  simp [List.length_flatMap, h, length_loopRange]

theorem pixelCount_eq_length (i : Image) (h1 : 1 ≤ (pixelList i).length)
    (h2 : (pixelList i).length ≤ 65537) : i.pixelCount = (pixelList i).length := by
  rw [length_pixelList] at h1 h2 ⊢
  unfold Image.pixelCount
  have hy : 0 < (i.maxY - i.minY).toNat := by
    rcases Nat.eq_zero_or_pos (i.maxY - i.minY).toNat with h | h
    · rw [h, Nat.zero_mul] at h1; omega
    · exact h
  have hx : 0 < (i.maxX - i.minX).toNat := by
    rcases Nat.eq_zero_or_pos (i.maxX - i.minX).toNat with h | h
    · rw [h, Nat.mul_zero] at h1; omega
    · exact h
  have e : (i.maxY - i.minY) * (i.maxX - i.minX)
      = (((i.maxY - i.minY).toNat * (i.maxX - i.minX).toNat : Nat) : Int) := by
    push_cast
    rw [Int.toNat_of_nonneg (by omega), Int.toNat_of_nonneg (by omega)]
  rw [e]
  omega
theorem foldl_take_exact (ps : List RGBA) (h2 : ps.length ≤ 65537)
    (hch : ∀ p ∈ ps, p.r ≤ 65535 ∧ p.g ≤ 65535 ∧ p.b ≤ 65535) (m : Nat) :
    (exactSums (ps.take m)).1 < 4294967296 ∧ (exactSums (ps.take m)).2.1 < 4294967296 ∧
      (exactSums (ps.take m)).2.2 < 4294967296 ∧
      (ps.take m).foldl addPixel (0, 0, 0) = exactSums (ps.take m) := by
  have hb := exactSums_bound (ps.take m) (fun p hp => hch p (List.mem_of_mem_take hp))
  have hl : (ps.take m).length ≤ 65537 := le_trans (List.length_take_le' _ _) h2
  have hm : (ps.take m).length * 65535 ≤ 65537 * 65535 := Nat.mul_le_mul_right _ hl
  refine ⟨by omega, by omega, by omega, ?_⟩
  rw [foldl_addPixel_exact _ (0, 0, 0) (by simp only []; omega) (by simp only []; omega)
    (by simp only []; omega)]
  simp

theorem channel_le_255 (S n : Nat) (hS : S ≤ n * 65535) : S / n / 257 ≤ 255 := by
  have h1 : S / n ≤ 65535 := by
    apply Nat.div_le_of_le_mul
    exact hS
  omega

/-- C19. For every image whose number of pixels n satisfies 1 <= n <= 65537 and whose
pixels report channels in 0..65535: the pixel count d equals n; at every point of the
pixel loops the uint32 accumulators hold the exact channel sums, which stay below 2^32
(no wrap); each returned channel is floor(floor(S/n)/257) for the exact sum S of that
channel, a value of at most 255, so the uint8 conversion loses nothing; the returned
alpha is 255. -/
theorem averageImageColor_exact (i : Image) (h1 : 1 ≤ (pixelList i).length)
    (h2 : (pixelList i).length ≤ 65537)
    (hch : ∀ p ∈ pixelList i, p.r ≤ 65535 ∧ p.g ≤ 65535 ∧ p.b ≤ 65535) :
    i.pixelCount = (pixelList i).length ∧
      (∀ m : Nat,
        (exactSums ((pixelList i).take m)).1 < 4294967296 ∧
          (exactSums ((pixelList i).take m)).2.1 < 4294967296 ∧
          (exactSums ((pixelList i).take m)).2.2 < 4294967296 ∧
          ((pixelList i).take m).foldl addPixel (0, 0, 0)
            = exactSums ((pixelList i).take m)) ∧
      sumPixels i = exactSums (pixelList i) ∧
      averageImageColor i
        = .ok { R := (exactSums (pixelList i)).1 / (pixelList i).length / 257,
                G := (exactSums (pixelList i)).2.1 / (pixelList i).length / 257,
                B := (exactSums (pixelList i)).2.2 / (pixelList i).length / 257,
                A := 255 } ∧
      (exactSums (pixelList i)).1 / (pixelList i).length / 257 ≤ 255 ∧
      (exactSums (pixelList i)).2.1 / (pixelList i).length / 257 ≤ 255 ∧
      (exactSums (pixelList i)).2.2 / (pixelList i).length / 257 ≤ 255 := by
  have hd := pixelCount_eq_length i h1 h2
  have hall := foldl_take_exact (pixelList i) h2 hch (pixelList i).length
  rw [List.take_length] at hall
  have hsum : sumPixels i = exactSums (pixelList i) := by
    rw [sumPixels_eq_foldl]
    exact hall.2.2.2
  have hb := exactSums_bound (pixelList i) hch
  have c1 := channel_le_255 _ _ hb.1
  have c2 := channel_le_255 _ _ hb.2.1
  have c3 := channel_le_255 _ _ hb.2.2
  refine ⟨hd, fun m => foldl_take_exact (pixelList i) h2 hch m, hsum, ?_, c1, c2, c3⟩
  unfold averageImageColor
  simp only [hsum, hd]
  rw [if_neg (by omega)]
  have e1 : (exactSums (pixelList i)).1 / (pixelList i).length / 257 % 256
      = (exactSums (pixelList i)).1 / (pixelList i).length / 257 := Nat.mod_eq_of_lt (by omega)
  have e2 : (exactSums (pixelList i)).2.1 / (pixelList i).length / 257 % 256
      = (exactSums (pixelList i)).2.1 / (pixelList i).length / 257 := Nat.mod_eq_of_lt (by omega)
  have e3 : (exactSums (pixelList i)).2.2 / (pixelList i).length / 257 % 256
      = (exactSums (pixelList i)).2.2 / (pixelList i).length / 257 := Nat.mod_eq_of_lt (by omega)
  simp only [Nat.reduceDiv] at *
  rw [e1, e2, e3]

/-- Witness for C19: a 2 by 2 image of the opaque colour (10, 20, 30). -/
theorem averageImageColor_exact_witness :
    (1 ≤ (pixelList (uniformImage 2 2 (opaque8 10 20 30))).length ∧
        (pixelList (uniformImage 2 2 (opaque8 10 20 30))).length ≤ 65537) ∧
      sumPixels (uniformImage 2 2 (opaque8 10 20 30))
        = exactSums (pixelList (uniformImage 2 2 (opaque8 10 20 30))) ∧
      exactSums (pixelList (uniformImage 2 2 (opaque8 10 20 30))) = (10280, 20560, 30840) :=
  have hl : (pixelList (uniformImage 2 2 (opaque8 10 20 30))).length = 4 := by
    rw [length_pixelList]
    simp [uniformImage]
  have hch : ∀ p ∈ pixelList (uniformImage 2 2 (opaque8 10 20 30)),
      p.r ≤ 65535 ∧ p.g ≤ 65535 ∧ p.b ≤ 65535 := by
    intro p hp
    simp only [pixelList, uniformImage, List.mem_flatMap, List.mem_map] at hp
    obtain ⟨_, _, _, _, rfl⟩ := hp
    rw [opaque8_channels 10 20 30 (by norm_num) (by norm_num) (by norm_num)]
    simp
  ⟨⟨by rw [hl]; norm_num, by rw [hl]; norm_num⟩,
    (averageImageColor_exact (uniformImage 2 2 (opaque8 10 20 30)) (by rw [hl]; norm_num)
      (by rw [hl]; norm_num) hch).2.2.1,
    by
      simp only [pixelList, uniformImage, loopRange, exactSums,
        opaque8_channels 10 20 30 (by norm_num) (by norm_num) (by norm_num)]
      decide⟩

end RainbowCollage
